import Mathlib

/-!
Verification development for the ClipCode chunking engine.

The TypeScript sources are shallowly embedded: JavaScript strings are
modelled as lists of characters (`Str`), JavaScript arrays as Lean lists,
JavaScript numbers holding token budgets as `Int` (so that the
`maxTokens <= 0` guards keep their exact meaning), thrown exceptions as
`Except` values, and the external tiktoken encoder as an opaque total
counting function wrapped exactly as `tokenizer.ts` wraps it.
-/

namespace ClipCode

/-- JavaScript strings are modelled as lists of characters. -/
abbrev Str := List Char

/-- Model of JavaScript String.prototype.trim (strip leading and trailing
whitespace). -/
def jsTrim (s : Str) : Str :=
  ((s.dropWhile Char.isWhitespace).reverse.dropWhile Char.isWhitespace).reverse

/-- The blank test that the sources write as (x.trim().length === 0). -/
def isBlank (s : Str) : Bool := (jsTrim s).isEmpty

/-- Model of JavaScript String.prototype.split with a one-character
separator, as used with the newline and the single-character delimiters of
split.ts.  Like the JavaScript original it never returns an empty list:
splitting the empty string yields one empty piece. -/
def splitOnChar (c : Char) : Str → List Str
  | [] => [[]]
  | x :: xs =>
      let r := splitOnChar c xs
      if x = c then [] :: r
      else
        match r with
        | [] => [[x]]
        | h :: t => (x :: h) :: t

/-- Model of JavaScript Array.prototype.join with a one-character
separator. -/
def joinChar (c : Char) : List Str → Str
  | [] => []
  | [l] => l
  | l :: l₂ :: t => l ++ c :: joinChar c (l₂ :: t)

theorem splitOnChar_ne_nil (c : Char) (s : Str) : splitOnChar c s ≠ [] := by
  cases s with
  | nil => simp [splitOnChar]
  | cons x xs =>
    simp only [splitOnChar]
    split
    · simp
    · split <;> simp

theorem joinChar_cons (c : Char) (l : Str) (ls : List Str) (h : ls ≠ []) :
    joinChar c (l :: ls) = l ++ c :: joinChar c ls := by
  cases ls with
  | nil => exact absurd rfl h
  | cons a t => rfl

theorem joinChar_splitOnChar (c : Char) (s : Str) :
    joinChar c (splitOnChar c s) = s := by
  induction s with
  | nil => rfl
  | cons x xs ih =>
    simp only [splitOnChar]
    split
    · rename_i hx
      rw [joinChar_cons c [] _ (splitOnChar_ne_nil c xs), List.nil_append, hx, ih]
    · rcases hr : splitOnChar c xs with _ | ⟨h, t⟩
      · exact absurd hr (splitOnChar_ne_nil c xs)
      · simp only
        cases t with
        | nil =>
          have := ih
          rw [hr] at this
          simp only [joinChar] at this ⊢
          rw [this]
        | cons b t₂ =>
          have := ih
          rw [hr] at this
          rw [joinChar_cons c h _ (by simp)] at this
          rw [joinChar_cons c (x :: h) _ (by simp), List.cons_append, this]

theorem not_mem_of_mem_splitOnChar (c : Char) (s : Str) (p : Str)
    (hp : p ∈ splitOnChar c s) : c ∉ p := by
  induction s generalizing p with
  | nil =>
    simp [splitOnChar] at hp
    simp [hp]
  | cons x xs ih =>
    simp only [splitOnChar] at hp
    split at hp
    · rcases List.mem_cons.mp hp with h | h
      · simp [h]
      · exact ih p h
    · rename_i hx
      rcases hr : splitOnChar c xs with _ | ⟨h, t⟩
      · exact absurd hr (splitOnChar_ne_nil c xs)
      · rw [hr] at hp
        rcases List.mem_cons.mp hp with h₁ | h₁
        · subst h₁
          intro hmem
          rcases List.mem_cons.mp hmem with h₂ | h₂
          · exact hx h₂.symm
          · exact ih h (by rw [hr]; exact List.mem_cons_self h t) h₂
        · exact ih p (by rw [hr]; exact List.mem_cons_of_mem h h₁)

theorem splitOnChar_eq_of_not_mem (c : Char) (l : Str) (hl : c ∉ l) :
    splitOnChar c l = [l] := by
  induction l with
  | nil => rfl
  | cons x xs ih =>
    have hx : x ≠ c := fun h => hl (h ▸ List.mem_cons_self x xs)
    have hxs : c ∉ xs := fun h => hl (List.mem_cons_of_mem x h)
    simp only [splitOnChar, if_neg hx, ih hxs]

theorem splitOnChar_append_cons (c : Char) (l : Str) (hl : c ∉ l) (rest : Str) :
    splitOnChar c (l ++ c :: rest) = l :: splitOnChar c rest := by
  induction l with
  | nil => simp [splitOnChar]
  | cons x xs ih =>
    have hx : x ≠ c := fun h => hl (h ▸ List.mem_cons_self x xs)
    have hxs : c ∉ xs := fun h => hl (List.mem_cons_of_mem x h)
    simp only [List.cons_append, splitOnChar, if_neg hx, List.append_eq, ih hxs]

theorem splitOnChar_joinChar (c : Char) (ls : List Str) (h : ls ≠ [])
    (hfree : ∀ l ∈ ls, c ∉ l) : splitOnChar c (joinChar c ls) = ls := by
  induction ls with
  | nil => exact absurd rfl h
  | cons l t ih =>
    cases t with
    | nil =>
      simp only [joinChar]
      exact splitOnChar_eq_of_not_mem c l (hfree l (List.mem_cons_self l []))
    | cons b t₂ =>
      rw [joinChar_cons c l _ (by simp)]
      rw [splitOnChar_append_cons c l (hfree l (List.mem_cons_self l _))]
      rw [ih (by simp) (fun x hx => hfree x (List.mem_cons_of_mem l hx))]

theorem isBlank_iff_forall (s : Str) :
    isBlank s = true ↔ ∀ ch ∈ s, ch.isWhitespace := by
  unfold isBlank jsTrim
  rw [List.isEmpty_iff, List.reverse_eq_nil_iff, List.dropWhile_eq_nil_iff]
  constructor
  · intro h ch hch
    have hsplit := List.takeWhile_append_dropWhile (p := fun ch => Char.isWhitespace ch) (l := s)
    rw [← hsplit] at hch
    rcases List.mem_append.mp hch with h₁ | h₁
    · exact List.mem_takeWhile_imp h₁
    · exact h ch (List.mem_reverse.mpr h₁)
  · intro h ch hch
    exact h ch ((List.dropWhile_sublist _).mem (List.mem_reverse.mp hch))

theorem isBlank_nil : isBlank ([] : Str) = true := rfl

theorem mem_joinChar (c : Char) (ls : List Str) (ch : Char)
    (h : ch ∈ joinChar c ls) : ch = c ∨ ∃ l ∈ ls, ch ∈ l := by
  induction ls with
  | nil => simp [joinChar] at h
  | cons l t ih =>
    cases t with
    | nil =>
      simp only [joinChar] at h
      exact Or.inr ⟨l, List.mem_cons_self l [], h⟩
    | cons b t₂ =>
      rw [joinChar_cons c l _ (by simp)] at h
      rcases List.mem_append.mp h with h₁ | h₁
      · exact Or.inr ⟨l, List.mem_cons_self l _, h₁⟩
      · rcases List.mem_cons.mp h₁ with h₂ | h₂
        · exact Or.inl h₂
        · rcases ih h₂ with h₃ | ⟨l₂, hl₂, hch⟩
          · exact Or.inl h₃
          · exact Or.inr ⟨l₂, List.mem_cons_of_mem l hl₂, hch⟩

theorem mem_joinChar_of_mem (c : Char) (ls : List Str) (l : Str) (ch : Char)
    (hl : l ∈ ls) (hch : ch ∈ l) : ch ∈ joinChar c ls := by
  induction ls with
  | nil => simp at hl
  | cons a t ih =>
    cases t with
    | nil =>
      simp only [joinChar]
      rcases List.mem_cons.mp hl with h | h
      · exact h ▸ hch
      · simp at h
    | cons b t₂ =>
      rw [joinChar_cons c a _ (by simp)]
      rcases List.mem_cons.mp hl with h | h
      · exact List.mem_append.mpr (Or.inl (h ▸ hch))
      · exact List.mem_append.mpr (Or.inr (List.mem_cons_of_mem c (ih h)))

theorem isBlank_joinChar (c : Char) (hc : c.isWhitespace) (ls : List Str) :
    isBlank (joinChar c ls) = true ↔ ∀ l ∈ ls, isBlank l = true := by
  constructor
  · intro h l hl
    rw [isBlank_iff_forall] at h ⊢
    intro ch hch
    exact h ch (mem_joinChar_of_mem c ls l ch hl hch)
  · intro h
    rw [isBlank_iff_forall]
    intro ch hch
    rcases mem_joinChar c ls ch hch with h₁ | ⟨l, hl, hch₂⟩
    · exact h₁ ▸ hc
    · exact (isBlank_iff_forall l).mp (h l hl) ch hch₂

/-!
Data model, from types.ts.  The best-effort imports/exports metadata fields
(filled by the regex scan extractImportsExports) are orthogonal to every
property stated below (the spec marks them as non-load-bearing), so they are
not carried in the embedded metadata record.
-/

/-- CodeSplit, from types.ts. -/
structure CodeSplit where
  content : Str
  startLine : Nat
  endLine : Nat
  tokenCount : Nat
deriving DecidableEq

/-- ChunkType, from types.ts. -/
inductive ChunkType where
  | ast_node
  | gap
  | split
deriving DecidableEq

/-- ChunkMetadata, from types.ts (without the non-load-bearing
imports/exports fields, see above). -/
structure ChunkMetadata where
  filePath : Str
  language : Str
  symbolName : Option Str
  symbolType : Option Str
  parentLineage : Option (List Str)
  chunkType : ChunkType
  startLine : Nat
  endLine : Nat
deriving DecidableEq

/-- FileChunk, from types.ts. -/
structure FileChunk where
  content : Str
  metadata : ChunkMetadata
  startLine : Nat
  endLine : Nat
  tokenCount : Nat
deriving DecidableEq

/-- ErrorType, from types.ts. -/
inductive ErrorType where
  | file_system
  | parsing
  | token_processing
  | database
deriving DecidableEq

/-- The error classes of errors.ts; each carries its message.  The class of
the value models the JavaScript instanceof checks. -/
inductive ChunkError where
  | fileSystem (message : Str)
  | parsing (message : Str)
  | tokenProcessing (message : Str)
  | database (message : Str)
deriving DecidableEq

/-- The message carried by an error value (Error.prototype.message). -/
def ChunkError.message : ChunkError → Str
  | .fileSystem m => m
  | .parsing m => m
  | .tokenProcessing m => m
  | .database m => m

/-!
Tokenizer, from tokenizer.ts.  The external tiktoken encoder is a black box
mapping text to a token sequence; it is modelled by its length function,
assumed total (encode does not throw once the encoding object exists).
Failure of get_encoding during construction is modelled in Tokenizer.init.
-/

/-- An acquired tiktoken encoding object, reduced to the only capability the
engine uses: the length of encoding.encode(text). -/
structure Encoding where
  encodeLen : Str → Nat

/-- The Tokenizer wrapper class of tokenizer.ts. -/
structure Tokenizer where
  encoding : Encoding
  modelName : Str

/-- Tokenizer.countTokens: empty or whitespace-only text short-circuits to 0
without consulting the encoder; otherwise the encoder is consulted. -/
def Tokenizer.countTokens (t : Tokenizer) (text : Str) : Nat :=
  if isBlank text then 0 else t.encoding.encodeLen text

/-- Tokenizer.exceedsLimit from tokenizer.ts. -/
def Tokenizer.exceedsLimit (t : Tokenizer) (text : Str) (maxTokens : Int) : Bool :=
  (t.countTokens text : Int) > maxTokens

/-- SUPPORTED_MODELS from tokenizer.ts. -/
def SUPPORTED_MODELS : List (Str × Str) :=
  [(("text-embedding-3-large").toList, ("cl100k_base").toList),
   (("text-embedding-3-small").toList, ("cl100k_base").toList),
   (("text-embedding-ada-002").toList, ("cl100k_base").toList),
   (("gpt-4").toList, ("cl100k_base").toList),
   (("gpt-3.5-turbo").toList, ("cl100k_base").toList)]

/-- The Tokenizer constructor.  The parameter g models the external
tiktoken get_encoding, which may throw (carrying a message).  The table
lookup with the JavaScript fallback (SUPPORTED_MODELS[m] || cl100k_base) is
modelled by getD; no table value is falsy. -/
def Tokenizer.init (g : Str → Except Str Encoding) (modelName : Str) :
    Except ChunkError Tokenizer :=
  let encodingName := (SUPPORTED_MODELS.lookup modelName).getD (("cl100k_base").toList)
  match g encodingName with
  | .ok enc => .ok ⟨enc, modelName⟩
  | .error m =>
      .error (.tokenProcessing
        ((("Failed to initialize tokenizer for model ").toList) ++ modelName
          ++ ((": ").toList) ++ m))

/-- createTokenizer from tokenizer.ts (just invokes the constructor). -/
def createTokenizer (g : Str → Except Str Encoding) (modelName : Str) :
    Except ChunkError Tokenizer :=
  Tokenizer.init g modelName

/-!
Token-aware splitter, from split.ts.
-/

/-- SplitOptions from types.ts. -/
structure SplitOptions where
  sourceCode : Str
  startLine : Nat
  maxTokens : Int
  tokenizer : Tokenizer

/-- flushChunk from split.ts: appends the joined pending lines as one split,
unless the line buffer is empty or its joined content is entirely blank. -/
def flushChunk (chunks : List CodeSplit) (lines : List Str)
    (startLine endLine : Nat) (tokenCount : Nat) : List CodeSplit :=
  if lines = [] then chunks
  else
    let content := joinChar '\n' lines
    if isBlank content then chunks
    else chunks ++ [{ content := content, startLine := startLine,
                      endLine := endLine, tokenCount := tokenCount }]

/-- The inner loop of findBestSplit for one delimiter: greedily re-join the
delimiter-separated parts while the joined prefix stays within budget, and
stop at the first part that does not fit. -/
def greedyJoinParts (tok : Tokenizer) (maxTokens : Int) (delimiter : Char) :
    Str → List Str → Str
  | currentPart, [] => currentPart
  | currentPart, p :: ps =>
      let testPart := currentPart ++ delimiter :: p
      if (tok.countTokens testPart : Int) ≤ maxTokens then
        greedyJoinParts tok maxTokens delimiter testPart ps
      else currentPart

/-- One delimiter round of findBestSplit: split the text on the delimiter
and greedily re-accumulate.  If already the first part is over budget the
round contributes the empty string (the loop breaks with currentPart
still empty). -/
def findBestSplitFor (text : Str) (maxTokens : Int) (tok : Tokenizer)
    (delimiter : Char) : Str :=
  match splitOnChar delimiter text with
  | [] => []
  | p :: ps =>
      if (tok.countTokens p : Int) ≤ maxTokens then
        greedyJoinParts tok maxTokens delimiter p ps
      else []

/-- The fixed delimiter priority list of splitLongLine. -/
def delimiters : List Char := [' ', ',', ';', '(', ')', '{', '}', '[', ']']

/-- findBestSplit from split.ts: try every delimiter and keep the longest
valid prefix found. -/
def findBestSplit (text : Str) (maxTokens : Int) (tok : Tokenizer)
    (ds : List Char) : Str :=
  ds.foldl
    (fun bestSplit d =>
      let currentPart := findBestSplitFor text maxTokens tok d
      if currentPart.length > bestSplit.length then currentPart else bestSplit)
    []

/-- The binary-search loop of findCharacterSplit.  The JavaScript loop keeps
integers left and right with right reaching -1; it is carried here as
rightPlusOne = right + 1 so both bounds stay natural numbers.  The loop
guard left <= right becomes left < rightPlusOne, Math.floor((left+right)/2)
becomes (left + rightPlusOne - 1) / 2, and right = mid - 1 becomes
rightPlusOne = mid. -/
def findCharacterSplitGo (tok : Tokenizer) (maxTokens : Int) (text : Str) :
    Nat → Nat → Nat → Nat
  | left, rightPlusOne, bestLength =>
    if _h : left < rightPlusOne then
      if (tok.countTokens (text.take ((left + rightPlusOne - 1) / 2)) : Int) ≤ maxTokens then
        findCharacterSplitGo tok maxTokens text ((left + rightPlusOne - 1) / 2 + 1)
          rightPlusOne ((left + rightPlusOne - 1) / 2)
      else
        findCharacterSplitGo tok maxTokens text left ((left + rightPlusOne - 1) / 2)
          bestLength
    else bestLength
termination_by left rightPlusOne _ => rightPlusOne - left
decreasing_by
  · have h2 : left ≤ (left + rightPlusOne - 1) / 2 := by
      rw [Nat.le_div_iff_mul_le (by omega)]
      omega
    omega
  · have h2 : (left + rightPlusOne - 1) / 2 < rightPlusOne := by
      rw [Nat.div_lt_iff_lt_mul (by omega)]
      omega
    omega

/-- findCharacterSplit from split.ts: binary search for the longest prefix
within budget (left = 0, right = text.length, bestLength = 0 initially). -/
def findCharacterSplit (text : Str) (maxTokens : Int) (tok : Tokenizer) : Str :=
  text.take (findCharacterSplitGo tok maxTokens text 0 (text.length + 1) 0)

/-- The body of the while loop of splitLongLine: the delimiter-based best
split, then the character-level binary search if that was empty, then the
single-character fallback if that was empty too. -/
def chooseBestSplit (remainingText : Str) (maxTokens : Int) (tok : Tokenizer) : Str :=
  let bs₀ := findBestSplit remainingText maxTokens tok delimiters
  let bs₁ := if bs₀.length = 0 then findCharacterSplit remainingText maxTokens tok else bs₀
  if bs₁.length = 0 then remainingText.take 1 else bs₁

/-- The while loop of splitLongLine: repeatedly carve the chosen split off
the front of the remaining text, recording each fragment with the line
number of the original line and its directly measured token count. -/
def splitLongLineGo (lineNumber : Nat) (maxTokens : Int) (tok : Tokenizer)
    (remainingText : Str) : List CodeSplit :=
  if hr : remainingText = [] then []
  else
    { content := chooseBestSplit remainingText maxTokens tok,
      startLine := lineNumber, endLine := lineNumber,
      tokenCount := tok.countTokens (chooseBestSplit remainingText maxTokens tok) }
      :: splitLongLineGo lineNumber maxTokens tok
        (remainingText.drop (chooseBestSplit remainingText maxTokens tok).length)
termination_by remainingText.length
decreasing_by
  have h2 : remainingText.length ≥ 1 := by
    cases remainingText
    · exact absurd rfl hr
    · simp
  have h1 : 1 ≤ (chooseBestSplit remainingText maxTokens tok).length := by
    simp only [chooseBestSplit]
    split
    · split
      · rw [List.length_take]
        omega
      · omega
    · omega
  simp only [List.length_drop]
  omega

/-- splitLongLine from split.ts. -/
def splitLongLine (line : Str) (lineNumber : Nat) (maxTokens : Int)
    (tok : Tokenizer) : List CodeSplit :=
  splitLongLineGo lineNumber maxTokens tok line

/-- The loop state of splitCode (the four mutable locals of the source). -/
structure SplitState where
  splits : List CodeSplit
  currentChunk : List Str
  currentStartLine : Nat
  currentTokenCount : Nat

/-- The main for loop of splitCode, processing the lines in order; i is the
loop index, so the current line number is startLine + i. -/
def splitCodeLoop (tok : Tokenizer) (maxTokens : Int) (startLine : Nat) :
    List Str → Nat → SplitState → SplitState
  | [], _, st => st
  | line :: rest, i, st =>
    let lineNumber := startLine + i
    if isBlank line then
      splitCodeLoop tok maxTokens startLine rest (i + 1)
        { st with currentChunk := st.currentChunk ++ [line] }
    else
      let lineTokens := tok.countTokens line
      if (lineTokens : Int) > maxTokens then
        let st₁ :=
          if st.currentChunk = [] then st
          else
            { splits := flushChunk st.splits st.currentChunk st.currentStartLine
                (lineNumber - 1) st.currentTokenCount,
              currentChunk := [], currentStartLine := lineNumber,
              currentTokenCount := 0 }
        let lineSplits := splitLongLine line lineNumber maxTokens tok
        splitCodeLoop tok maxTokens startLine rest (i + 1)
          { splits := st₁.splits ++ lineSplits,
            currentChunk := st₁.currentChunk,
            currentStartLine := lineNumber + 1,
            currentTokenCount := st₁.currentTokenCount }
      else
        let potentialTokenCount := st.currentTokenCount + lineTokens
        if (potentialTokenCount : Int) > maxTokens ∧ st.currentChunk ≠ [] then
          splitCodeLoop tok maxTokens startLine rest (i + 1)
            { splits := flushChunk st.splits st.currentChunk st.currentStartLine
                (lineNumber - 1) st.currentTokenCount,
              currentChunk := [line], currentStartLine := lineNumber,
              currentTokenCount := lineTokens }
        else
          splitCodeLoop tok maxTokens startLine rest (i + 1)
            { st with currentChunk := st.currentChunk ++ [line],
                      currentTokenCount := potentialTokenCount }

/-- splitCode from split.ts.  The JavaScript guard (!sourceCode ||
sourceCode.trim().length === 0) is the blank test, because the empty string
is falsy and also blank.  Note the guard precedes the maxTokens
validation, exactly as in the source. -/
def splitCode (options : SplitOptions) : Except ChunkError (List CodeSplit) :=
  if isBlank options.sourceCode then .ok []
  else if options.maxTokens ≤ 0 then
    .error (.tokenProcessing (("maxTokens must be greater than 0").toList))
  else
    let lines := splitOnChar '\n' options.sourceCode
    let st := splitCodeLoop options.tokenizer options.maxTokens options.startLine
      lines 0 ⟨[], [], options.startLine, 0⟩
    .ok (if st.currentChunk = [] then st.splits
         else flushChunk st.splits st.currentChunk st.currentStartLine
           (options.startLine + lines.length - 1) st.currentTokenCount)

/-!
AST collection and the cursor compositor, from chunk-file.ts.
-/

/-- Position in the tree-sitter coordinate system (0-based row/column). -/
structure TSPoint where
  row : Nat
  column : Nat
deriving DecidableEq

/-- The owned snapshot record ASTNode from types.ts. -/
structure ASTNode where
  type : Str
  startPosition : TSPoint
  endPosition : TSPoint
  text : Str
deriving DecidableEq

/-- The enhanced node used by chunk-file.ts: ASTNode together with the
optional symbolName, symbolType and parentLineage fields. -/
structure EnhancedASTNode extends ASTNode where
  symbolName : Option Str
  symbolType : Option Str
  parentLineage : Option (List Str)
deriving DecidableEq

/-- A node of the external tree-sitter parse tree, reduced to the fields the
engine reads: type, start and end position, text, and children. -/
inductive TSNode where
  | node (type : Str) (startPosition endPosition : TSPoint) (text : Str)
      (children : List TSNode)

def TSNode.type : TSNode → Str
  | .node ty _ _ _ _ => ty

def TSNode.startPosition : TSNode → TSPoint
  | .node _ sp _ _ _ => sp

def TSNode.endPosition : TSNode → TSPoint
  | .node _ _ ep _ _ => ep

def TSNode.text : TSNode → Str
  | .node _ _ _ tx _ => tx

def TSNode.children : TSNode → List TSNode
  | .node _ _ _ _ cs => cs

mutual

/-- The number of nodes of a tree (used as fuel for extractSymbolName). -/
def TSNode.size : TSNode → Nat
  | .node _ _ _ _ cs => 1 + TSNode.sizeList cs

def TSNode.sizeList : List TSNode → Nat
  | [] => 0
  | c :: cs => TSNode.size c + TSNode.sizeList cs

end

/-- extractSymbolName from chunk-file.ts: a fixed switch on the node type,
resolving the name from the first child of a fixed kind; the
export_statement case recurses into the wrapped declaration.  The source
recursion descends into a strict subtree, so running it with fuel equal to
the tree size (which strictly exceeds every descent chain) is faithful; the
fuel makes the definition structural and hence kernel-computable. -/
def extractSymbolNameGo : Nat → TSNode → Option Str
  | 0, _ => none
  | fuel + 1, TSNode.node ty sp ep tx children =>
    if ty = ("function_declaration").toList then
      (children.find? (fun c => c.type == ("identifier").toList)).map TSNode.text
    else if ty = ("class_declaration").toList then
      (children.find? (fun c => c.type == ("type_identifier").toList)).map TSNode.text
    else if ty = ("interface_declaration").toList then
      (children.find? (fun c => c.type == ("type_identifier").toList)).map TSNode.text
    else if ty = ("type_alias_declaration").toList then
      (children.find? (fun c => c.type == ("type_identifier").toList)).map TSNode.text
    else if ty = ("method_definition").toList then
      (children.find? (fun c => c.type == ("property_identifier").toList)).map TSNode.text
    else if ty = ("arrow_function").toList then
      none
    else if ty = ("variable_declaration").toList ∨ ty = ("lexical_declaration").toList then
      match children.find? (fun c => c.type == ("variable_declarator").toList) with
      | some declarator =>
          (declarator.children.find? (fun c => c.type == ("identifier").toList)).map TSNode.text
      | none => none
    else if ty = ("export_statement").toList then
      match children.find? (fun c =>
          c.type == ("export_clause").toList ||
          c.type == ("function_declaration").toList ||
          c.type == ("class_declaration").toList ||
          c.type == ("interface_declaration").toList) with
      | some exportClause =>
          if exportClause.type ≠ ("export_clause").toList then
            extractSymbolNameGo fuel exportClause
          else none
      | none => none
    else if ty = ("import_statement").toList then
      match children.find? (fun c => c.type == ("import_clause").toList) with
      | some importClause =>
          match importClause.children.find? (fun c => c.type == ("identifier").toList) with
          | some defaultImport => some defaultImport.text
          | none =>
              match importClause.children.find? (fun c => c.type == ("named_imports").toList) with
              | some namedImports =>
                  match namedImports.children.find? (fun c => c.type == ("import_specifier").toList) with
                  | some firstSpecifier =>
                      (firstSpecifier.children.find? (fun c => c.type == ("identifier").toList)).map TSNode.text
                  | none => none
              | none => none
      | none => none
    else none

/-- extractSymbolName from chunk-file.ts (see extractSymbolNameGo).  The
tree size strictly exceeds the length of every chain of recursive calls, so
the fuel never runs out. -/
def extractSymbolName (n : TSNode) : Option Str :=
  extractSymbolNameGo n.size n

/-- extractSymbolType from chunk-file.ts. -/
def extractSymbolType (n : TSNode) : Str :=
  if n.type = ("function_declaration").toList then ("function").toList
  else if n.type = ("class_declaration").toList then ("class").toList
  else if n.type = ("interface_declaration").toList then ("interface").toList
  else if n.type = ("type_alias_declaration").toList then ("type_alias").toList
  else if n.type = ("method_definition").toList then ("method").toList
  else if n.type = ("arrow_function").toList then ("arrow_function").toList
  else if n.type = ("variable_declaration").toList ∨ n.type = ("lexical_declaration").toList then
    ("variable").toList
  else if n.type = ("export_statement").toList then ("export").toList
  else if n.type = ("import_statement").toList then ("import").toList
  else n.type

/-- isContainerNode from chunk-file.ts. -/
def isContainerNode (nodeType : Str) : Bool :=
  nodeType == ("class_declaration").toList ||
  nodeType == ("interface_declaration").toList ||
  nodeType == ("namespace_declaration").toList ||
  nodeType == ("module_declaration").toList ||
  nodeType == ("enum_declaration").toList

/-- The node comparator of collectTreeNodesWithSymbols and
processFileWithCursor: by start row, then by start column.  JavaScript
Array.prototype.sort is stable (ES2019); the stable sort by a total preorder
is unique, and it is modelled below by insertion sort, which is structurally
recursive and therefore kernel-computable. -/
def nodeRel (a b : EnhancedASTNode) : Prop :=
  a.startPosition.row < b.startPosition.row ∨
    (a.startPosition.row = b.startPosition.row ∧
     a.startPosition.column ≤ b.startPosition.column)

instance : DecidableRel nodeRel := fun a b => by
  unfold nodeRel
  infer_instance

mutual

/-- collectTreeNodesWithSymbols from chunk-file.ts: collect every node whose
type is wanted, always descend into children, extend the lineage under named
container nodes (the JavaScript truthiness test on the name makes an empty
name behave like no name), and sort the result by (row, column).  The
child loop of the source is the mutual list walk below. -/
def collectTreeNodesWithSymbols : TSNode → List Str → List Str → List EnhancedASTNode
  | TSNode.node ty sp ep tx children, wantedNodes, parentLineage =>
    let own : List EnhancedASTNode :=
      if ty ∈ wantedNodes then
        [{ type := ty, startPosition := sp, endPosition := ep, text := tx,
           symbolName := extractSymbolName (TSNode.node ty sp ep tx children),
           symbolType := some (extractSymbolType (TSNode.node ty sp ep tx children)),
           parentLineage := if parentLineage = [] then none else some parentLineage }]
      else []
    let currentSymbolName := extractSymbolName (TSNode.node ty sp ep tx children)
    let newParentLineage :=
      match currentSymbolName with
      | some nm =>
          if nm ≠ [] ∧ isContainerNode ty then parentLineage ++ [nm] else parentLineage
      | none => parentLineage
    let childNodes := collectTreeNodesList children wantedNodes newParentLineage
    List.insertionSort nodeRel (own ++ childNodes)

def collectTreeNodesList : List TSNode → List Str → List Str → List EnhancedASTNode
  | [], _, _ => []
  | c :: cs, wantedNodes, newParentLineage =>
      collectTreeNodesWithSymbols c wantedNodes newParentLineage
        ++ collectTreeNodesList cs wantedNodes newParentLineage

end

/-- ChunkConfig from types.ts (the tree-sitter language object is the
external parser and is passed separately in this embedding). -/
structure ChunkConfig where
  name : Str
  wantedNodes : List Str

/-- tsConfig from chunk.ts. -/
def tsConfig : ChunkConfig :=
  { name := ("typescript").toList,
    wantedNodes :=
      [("function_declaration").toList,
       ("method_definition").toList,
       ("class_declaration").toList,
       ("interface_declaration").toList,
       ("type_alias_declaration").toList,
       ("enum_declaration").toList,
       ("namespace_declaration").toList,
       ("module_declaration").toList,
       ("variable_declaration").toList,
       ("lexical_declaration").toList,
       ("import_statement").toList,
       ("export_statement").toList] }

/-- tsxConfig from chunk.ts (same name and wanted nodes). -/
def tsxConfig : ChunkConfig :=
  { name := tsConfig.name, wantedNodes := tsConfig.wantedNodes }

/-- LANG_CONFIG from chunk.ts, as a lookup on the file extension. -/
def LANG_CONFIG (ext : Str) : Option ChunkConfig :=
  if ext = ((".ts").toList) then some tsConfig
  else if ext = ((".tsx").toList) then some tsxConfig
  else none

/-- Model of path.extname for POSIX paths: the suffix of the last path
component starting at its final dot; empty when that component has no dot
after its first character. -/
def extname (p : Str) : Str :=
  let base := (splitOnChar '/' p).getLastD []
  match base with
  | [] => []
  | _ :: rest =>
      if ('.') ∈ rest then
        '.' :: ((base.reverse.takeWhile (fun c => c != '.')).reverse)
      else []

/-- ChunkFileOptions from types.ts. -/
structure ChunkFileOptions where
  filePath : Str
  maxTokens : Int
  modelName : Str

/-- processASTNodeContent from chunk-file.ts: one chunk when the node text
fits the budget, otherwise one chunk per split with the symbol metadata of
the parent node propagated. -/
def processASTNodeContent (node : EnhancedASTNode) (filePath language : Str)
    (maxTokens : Int) (tok : Tokenizer) : Except ChunkError (List FileChunk) :=
  let nodeStartLine := node.startPosition.row + 1
  let nodeEndLine := node.endPosition.row + 1
  let tokenCount := tok.countTokens node.text
  if (tokenCount : Int) ≤ maxTokens then
    let metadata : ChunkMetadata :=
      { filePath := filePath, language := language,
        symbolName := node.symbolName, symbolType := node.symbolType,
        parentLineage := node.parentLineage, chunkType := ChunkType.ast_node,
        startLine := nodeStartLine, endLine := nodeEndLine }
    .ok [{ content := node.text, metadata := metadata,
           startLine := nodeStartLine, endLine := nodeEndLine,
           tokenCount := tokenCount }]
  else
    match splitCode { sourceCode := node.text, startLine := nodeStartLine,
                      maxTokens := maxTokens, tokenizer := tok } with
    | .error e => .error e
    | .ok splits =>
        .ok (splits.map (fun sp =>
          let metadata : ChunkMetadata :=
            { filePath := filePath, language := language,
              symbolName := node.symbolName, symbolType := node.symbolType,
              parentLineage := node.parentLineage, chunkType := ChunkType.split,
              startLine := sp.startLine, endLine := sp.endLine }
          { content := sp.content, metadata := metadata,
            startLine := sp.startLine, endLine := sp.endLine,
            tokenCount := sp.tokenCount }))

/-- processGapContent from chunk-file.ts. -/
def processGapContent (gapContent : Str) (startLine endLine : Nat)
    (filePath language : Str) (maxTokens : Int) (tok : Tokenizer) :
    Except ChunkError (List FileChunk) :=
  let tokenCount := tok.countTokens gapContent
  if (tokenCount : Int) ≤ maxTokens then
    let metadata : ChunkMetadata :=
      { filePath := filePath, language := language,
        symbolName := none, symbolType := none, parentLineage := none,
        chunkType := ChunkType.gap, startLine := startLine, endLine := endLine }
    .ok [{ content := gapContent, metadata := metadata,
           startLine := startLine, endLine := endLine, tokenCount := tokenCount }]
  else
    match splitCode { sourceCode := gapContent, startLine := startLine,
                      maxTokens := maxTokens, tokenizer := tok } with
    | .error e => .error e
    | .ok splits =>
        .ok (splits.map (fun sp =>
          let metadata : ChunkMetadata :=
            { filePath := filePath, language := language,
              symbolName := none, symbolType := none, parentLineage := none,
              chunkType := ChunkType.split, startLine := sp.startLine, endLine := sp.endLine }
          { content := sp.content, metadata := metadata,
            startLine := sp.startLine, endLine := sp.endLine,
            tokenCount := sp.tokenCount }))

/-- The comparator of the final chunks.sort of processFileWithCursor. -/
def chunkRel (a b : FileChunk) : Prop :=
  a.startLine ≤ b.startLine

instance : DecidableRel chunkRel := fun a b => by
  unfold chunkRel
  infer_instance

/-- The node loop of processFileWithCursor (chunks and cursor are the two
mutable locals), followed by the trailing-gap step after the loop. -/
def processFileWithCursorGo (sourceLines : List Str) (filePath language : Str)
    (maxTokens : Int) (tok : Tokenizer) :
    List EnhancedASTNode → Nat → List FileChunk → Except ChunkError (List FileChunk)
  | [], cursor, chunks =>
      if cursor ≤ sourceLines.length then
        let trailingContent := joinChar '\n' (sourceLines.drop (cursor - 1))
        if isBlank trailingContent then .ok chunks
        else
          match processGapContent trailingContent cursor sourceLines.length
              filePath language maxTokens tok with
          | .error e => .error e
          | .ok trailingChunks => .ok (chunks ++ trailingChunks)
      else .ok chunks
  | node :: rest, cursor, chunks =>
      let nodeStartLine := node.startPosition.row + 1
      let nodeEndLine := node.endPosition.row + 1
      let afterGap : Except ChunkError (List FileChunk) :=
        if cursor < nodeStartLine then
          let gapEndLine := nodeStartLine - 1
          let gapContent := joinChar '\n' ((sourceLines.take gapEndLine).drop (cursor - 1))
          if isBlank gapContent then .ok chunks
          else
            match processGapContent gapContent cursor gapEndLine filePath language
                maxTokens tok with
            | .error e => .error e
            | .ok gapChunks => .ok (chunks ++ gapChunks)
        else .ok chunks
      match afterGap with
      | .error e => .error e
      | .ok chunks₁ =>
          match processASTNodeContent node filePath language maxTokens tok with
          | .error e => .error e
          | .ok nodeChunks =>
              processFileWithCursorGo sourceLines filePath language maxTokens tok
                rest (nodeEndLine + 1) (chunks₁ ++ nodeChunks)

/-- processFileWithCursor from chunk-file.ts: sort the nodes, run the cursor
loop from line 1, process the trailing gap, and sort the chunks by start
line. -/
def processFileWithCursor (fileContent : Str) (astNodes : List EnhancedASTNode)
    (filePath language : Str) (maxTokens : Int) (tok : Tokenizer) :
    Except ChunkError (List FileChunk) :=
  let sourceLines := splitOnChar '\n' fileContent
  let sortedNodes := List.insertionSort nodeRel astNodes
  match processFileWithCursorGo sourceLines filePath language maxTokens tok
      sortedNodes 1 [] with
  | .error e => .error e
  | .ok chunks => .ok (List.insertionSort chunkRel chunks)

/-- The catch block of chunkFile: a FileSystemError or ParsingError is
rethrown unchanged, any other thrown value is wrapped in a new ParsingError
whose message embeds the file path and the original message. -/
def chunkFileCatch (filePath : Str) (r : Except ChunkError (List FileChunk)) :
    Except ChunkError (List FileChunk) :=
  match r with
  | .ok v => .ok v
  | .error (.fileSystem m) => .error (.fileSystem m)
  | .error (.parsing m) => .error (.parsing m)
  | .error e =>
      .error (.parsing ((("Unexpected error processing ").toList) ++ filePath
        ++ ((": ").toList) ++ e.message))

/-- chunkFile from chunk-file.ts.  The external collaborators are passed as
functions: fsRead models fs.readFileSync (it may throw, carrying a message),
parse models the tree-sitter parser, g models tiktoken get_encoding.  The
tokenizer.dispose() in the finally block frees encoder memory and has no
observable effect on the result, so it is not modelled. -/
def chunkFile (fsRead : Str → Except Str Str) (parse : Str → Except Str TSNode)
    (g : Str → Except Str Encoding) (options : ChunkFileOptions) :
    Except ChunkError (List FileChunk) :=
  chunkFileCatch options.filePath
    (match LANG_CONFIG (extname options.filePath) with
     | none => .ok []
     | some langConfig =>
       match fsRead options.filePath with
       | .error m =>
           .error (.fileSystem ((("Failed to read file ").toList) ++ options.filePath
             ++ ((": ").toList) ++ m))
       | .ok fileContent =>
         match parse fileContent with
         | .error m =>
             .error (.parsing ((("Failed to parse ").toList) ++ options.filePath
               ++ ((": ").toList) ++ m))
         | .ok tree =>
           match createTokenizer g options.modelName with
           | .error e => .error e
           | .ok tok =>
             let astNodes := collectTreeNodesWithSymbols tree langConfig.wantedNodes []
             processFileWithCursor fileContent astNodes options.filePath
               langConfig.name options.maxTokens tok)

/-!
Batch orchestration, from the batch processor source (unnamed part 001).
-/

/-- ProcessingError from types.ts (the stack and timestamp diagnostics are
not modelled). -/
structure ProcessingError where
  type : ErrorType
  filePath : Str
  message : Str
  recoverable : Bool
deriving DecidableEq

/-- Whether needle is a leading prefix of hay. -/
def isPrefixB : Str → Str → Bool
  | [], _ => true
  | _ :: _, [] => false
  | a :: as, b :: bs => a == b && isPrefixB as bs

/-- Model of String.prototype.includes: the needle occurs contiguously in
the haystack. -/
def strIncludes : Str → Str → Bool
  | [], needle => isPrefixB needle []
  | a :: t, needle => isPrefixB needle (a :: t) || strIncludes t needle

/-- determineErrorType from the batch processor: classify an error by
substring tests on its lowercased message, in a fixed order, defaulting to
parsing. -/
def determineErrorType (errorMessage : Str) : ErrorType :=
  let message := errorMessage.map Char.toLower
  if strIncludes message (("enoent").toList) || strIncludes message (("eacces").toList)
      || strIncludes message (("file").toList) then ErrorType.file_system
  else if strIncludes message (("parse").toList)
      || strIncludes message (("syntax").toList) then ErrorType.parsing
  else if strIncludes message (("token").toList)
      || strIncludes message (("tiktoken").toList) then ErrorType.token_processing
  else if strIncludes message (("chroma").toList)
      || strIncludes message (("database").toList)
      || strIncludes message (("embedding").toList) then ErrorType.database
  else ErrorType.parsing

/-- FileProcessingResult from the batch processor (processingTimeMs is wall
clock and not modelled). -/
structure FileProcessingResult where
  filePath : Str
  chunks : List FileChunk
  error : Option ProcessingError
deriving DecidableEq

/-- processFileWithErrorHandling from the batch processor: a successful
chunkFile call yields its chunks; a thrown error is classified by message
and the file contributes an error record and no chunks (or, with
continueOnError false, the error propagates). -/
def processFileWithErrorHandling (fsRead : Str → Except Str Str)
    (parse : Str → Except Str TSNode) (g : Str → Except Str Encoding)
    (filePath : Str) (options : ChunkFileOptions) (continueOnError : Bool) :
    Except ChunkError FileProcessingResult :=
  match chunkFile fsRead parse g options with
  | .ok chunks => .ok { filePath := filePath, chunks := chunks, error := none }
  | .error e =>
      let processingError : ProcessingError :=
        { type := determineErrorType e.message, filePath := filePath,
          message := e.message, recoverable := continueOnError }
      if continueOnError = false then .error e
      else .ok { filePath := filePath, chunks := [], error := some processingError }

/-- ProcessingStats from types.ts. -/
structure ProcessingStats where
  filesProcessed : Nat
  chunksCreated : Nat
  errors : List ProcessingError
deriving DecidableEq

/-- The result-aggregation loop of batchProcessFiles: walk the per-file
results in completion order; a success appends its chunks to the aggregate
and counts toward filesProcessed, a failure appends its error.  No sort is
applied to the aggregate chunk list. -/
def aggregateResults (results : List FileProcessingResult) :
    ProcessingStats × List FileChunk :=
  let out := results.foldl
    (fun (acc : List FileChunk × List ProcessingError × Nat) (result : FileProcessingResult) =>
      match result.error with
      | some e => (acc.1, acc.2.1 ++ [e], acc.2.2)
      | none => (acc.1 ++ result.chunks, acc.2.1, acc.2.2 + 1))
    ([], [], 0)
  ({ filesProcessed := out.2.2, chunksCreated := out.1.length, errors := out.2.1 }, out.1)

deriving instance DecidableEq for Except

/-!
Specification predicates and concrete instances used to settle the claims.
-/

/-- Two chunks occupy disjoint line spans. -/
def SpanDisjoint (a b : FileChunk) : Prop :=
  a.endLine < b.startLine ∨ b.endLine < a.startLine

/-- Some chunk of the list covers line l. -/
def CoversLine (cs : List FileChunk) (l : Nat) : Prop :=
  ∃ c ∈ cs, c.startLine ≤ l ∧ l ≤ c.endLine

/-- The coverage property asserted by the spec for C1: pairwise disjoint
spans whose union is exactly the full line range 1..totalLines. -/
def SpecC1Prop (cs : List FileChunk) (totalLines : Nat) : Prop :=
  List.Pairwise SpanDisjoint cs ∧
  ∀ l, CoversLine cs l ↔ (1 ≤ l ∧ l ≤ totalLines)

/-- Two chunks either occupy disjoint spans or the identical span (the
fragments of one oversized line all carry that line's one-line span). -/
def SpanDisjointOrEqual (a b : FileChunk) : Prop :=
  SpanDisjoint a b ∨ (a.startLine = b.startLine ∧ a.endLine = b.endLine)

/-- Lexicographic strict order on strings (JavaScript string comparison). -/
def strLtB : Str → Str → Bool
  | [], [] => false
  | [], _ :: _ => true
  | _ :: _, [] => false
  | a :: as, b :: bs => if a < b then true else if b < a then false else strLtB as bs

/-- The chunk list is sorted by (filePath, startLine): every chunk precedes
every later chunk in the lexicographic path order, with ties broken by
start line. -/
def SortedByPathLine (cs : List FileChunk) : Prop :=
  List.Pairwise
    (fun a b => strLtB a.metadata.filePath b.metadata.filePath = true ∨
      (a.metadata.filePath = b.metadata.filePath ∧ a.startLine ≤ b.startLine)) cs

/-- A perfectly legitimate instance of the black-box encoder interface: one
token per character. -/
def charCountEncoding : Encoding := ⟨List.length⟩

/-- A tokenizer built on the character-count encoder. -/
def charCountTokenizer : Tokenizer :=
  ⟨charCountEncoding, ("text-embedding-3-large").toList⟩

/-!
Concrete inputs for the counterexamples.
-/

/-- C1 counterexample file content: a class spanning lines 1-2 with a
nested method on line 2, followed by a blank line 3 and an empty line 4
(mirroring the shapes the repository tests exercise through the real
tree-sitter grammar, where class_declaration and method_definition are both
wanted kinds). -/
def c1Content : Str := ("class A\nm 1\n \n").toList

def c1MethodNode : TSNode :=
  TSNode.node (("method_definition").toList) ⟨1, 0⟩ ⟨1, 2⟩ (("m 1").toList) []

def c1ClassNode : TSNode :=
  TSNode.node (("class_declaration").toList) ⟨0, 0⟩ ⟨1, 2⟩ (("class A\nm 1").toList)
    [c1MethodNode]

def c1RootNode : TSNode :=
  TSNode.node (("program").toList) ⟨0, 0⟩ ⟨3, 0⟩ c1Content [c1ClassNode]

def c1Read : Str → Except Str Str := fun p =>
  if p = ("a.ts").toList then Except.ok c1Content
  else Except.error (("ENOENT").toList)

def c1Parse : Str → Except Str TSNode := fun s =>
  if s = c1Content then Except.ok c1RootNode
  else Except.error (("cannot parse").toList)

def c1Enc : Str → Except Str Encoding := fun _ => Except.ok charCountEncoding

def c1Options : ChunkFileOptions :=
  ⟨("a.ts").toList, 100, ("text-embedding-3-large").toList⟩

/-- C5 counterexample: a supported, readable, parseable one-line file
processed with maxTokens = 0. -/
def c5Content : Str := ("x").toList

def c5Tree : TSNode :=
  TSNode.node (("program").toList) ⟨0, 0⟩ ⟨0, 1⟩ c5Content []

def c5Read : Str → Except Str Str := fun p =>
  if p = ("a.ts").toList then Except.ok c5Content
  else Except.error (("ENOENT").toList)

def c5Parse : Str → Except Str TSNode := fun s =>
  if s = c5Content then Except.ok c5Tree
  else Except.error (("cannot parse").toList)

def c5Options : ChunkFileOptions :=
  ⟨("a.ts").toList, 0, ("text-embedding-3-large").toList⟩

/-- C7 counterexample: two successfully processed files whose completion
order is b.ts before a.ts. -/
def c7Chunk (path : Str) : FileChunk :=
  ⟨("x").toList, ⟨path, ("typescript").toList, none, none, none, ChunkType.gap, 1, 1⟩,
    1, 1, 1⟩

def c7ResultB : FileProcessingResult :=
  ⟨("b.ts").toList, [c7Chunk (("b.ts").toList)], none⟩

def c7ResultA : FileProcessingResult :=
  ⟨("a.ts").toList, [c7Chunk (("a.ts").toList)], none⟩

/-- C8 counterexample: a file whose path contains the substring file, on
which tokenizer acquisition fails. -/
def c8Path : Str := ("src/chunk-file.ts").toList

def c8Read : Str → Except Str Str := fun p =>
  if p = c8Path then Except.ok c5Content
  else Except.error (("ENOENT").toList)

def c8Tree : TSNode :=
  TSNode.node (("program").toList) ⟨0, 0⟩ ⟨0, 1⟩ c5Content []

def c8Parse : Str → Except Str TSNode := fun s =>
  if s = c5Content then Except.ok c8Tree
  else Except.error (("cannot parse").toList)

def c8FailEnc : Str → Except Str Encoding := fun _ =>
  Except.error (("boom").toList)

def c8Options : ChunkFileOptions :=
  ⟨c8Path, 100, ("text-embedding-3-large").toList⟩

/-- Like SpanDisjointOrEqual, for raw splitter output. -/
def CSpanRel (a b : CodeSplit) : Prop :=
  a.endLine < b.startLine ∨ (a.startLine = b.startLine ∧ a.endLine = b.endLine)

/-- Some split of the list covers line l. -/
def CoversCS (ss : List CodeSplit) (l : Nat) : Prop :=
  ∃ s ∈ ss, s.startLine ≤ l ∧ l ≤ s.endLine

/-- Ordered variant of SpanDisjointOrEqual for emitted chunks: the earlier
chunk either ends strictly before the later one starts or occupies the
identical span. -/
def ChunkSpanRel (a b : FileChunk) : Prop :=
  a.endLine < b.startLine ∨ (a.startLine = b.startLine ∧ a.endLine = b.endLine)

/-- The options of the C8 witness: a path that avoids every reclassifying
substring. -/
def c8WitnessOptions : ChunkFileOptions :=
  ⟨("a.ts").toList, 100, ("text-embedding-3-large").toList⟩

/-- C1 witness input: a four-line file with one non-nested wanted node on
its second line, a blank third line, and text on the others. -/
def c1wContent : Str := ("ab\nx\n \ncd").toList

def c1wNode : EnhancedASTNode :=
  ⟨⟨("lexical_declaration").toList, ⟨1, 0⟩, ⟨1, 1⟩, ("x").toList⟩,
    none, some (("variable").toList), none⟩

/-- The message with which chunkFile surfaces a tokenizer-acquisition
failure: its catch block wraps the TokenProcessingError of Tokenizer.init
into a ParsingError embedding the file path. -/
def tokenizerInitWrappedMessage (filePath modelName m : Str) : Str :=
  (("Unexpected error processing ").toList) ++ filePath ++ ((": ").toList)
    ++ (("Failed to initialize tokenizer for model ").toList) ++ modelName
    ++ ((": ").toList) ++ m

instance : DecidableRel SpanDisjoint := fun a b =>
  inferInstanceAs (Decidable (a.endLine < b.startLine ∨ b.endLine < a.startLine))

instance (cs : List FileChunk) (l : Nat) : Decidable (CoversLine cs l) :=
  inferInstanceAs (Decidable (∃ c ∈ cs, c.startLine ≤ l ∧ l ≤ c.endLine))

instance : DecidableRel SpanDisjointOrEqual := fun a b =>
  inferInstanceAs (Decidable (SpanDisjoint a b ∨
    (a.startLine = b.startLine ∧ a.endLine = b.endLine)))

instance (cs : List FileChunk) : Decidable (SortedByPathLine cs) :=
  inferInstanceAs (Decidable (List.Pairwise
    (fun (a b : FileChunk) => strLtB a.metadata.filePath b.metadata.filePath = true ∨
      (a.metadata.filePath = b.metadata.filePath ∧ a.startLine ≤ b.startLine)) cs))

/-!
Structural lemmas about the long-line splitter.
-/

theorem joinChar_eq_flatten (c : Char) (l : Str) (ls : List Str) :
    joinChar c (l :: ls) = l ++ (ls.map (fun p => c :: p)).flatten := by
  induction ls generalizing l with
  | nil => simp [joinChar]
  | cons b t ih =>
      rw [joinChar_cons c l _ (by simp)]
      rw [ih b]
      simp

theorem greedyJoinParts_isPrefix (tok : Tokenizer) (m : Int) (d : Char)
    (ps : List Str) (cur : Str) :
    greedyJoinParts tok m d cur ps <+: cur ++ (ps.map (fun p => d :: p)).flatten := by
  induction ps generalizing cur with
  | nil => simp [greedyJoinParts]
  | cons p t ih =>
      simp only [greedyJoinParts]
      split
      · have h := ih (cur ++ d :: p)
        refine h.trans ?_
        simp
      · simp

theorem greedyJoinParts_count_le (tok : Tokenizer) (m : Int) (d : Char)
    (ps : List Str) (cur : Str) (h : (tok.countTokens cur : Int) ≤ m) :
    (tok.countTokens (greedyJoinParts tok m d cur ps) : Int) ≤ m := by
  induction ps generalizing cur with
  | nil => exact h
  | cons p t ih =>
      simp only [greedyJoinParts]
      split
      · rename_i hle
        exact ih _ hle
      · exact h

theorem countTokens_nil (tok : Tokenizer) : tok.countTokens [] = 0 := rfl

theorem findBestSplitFor_isPrefix (text : Str) (m : Int) (tok : Tokenizer)
    (d : Char) : findBestSplitFor text m tok d <+: text := by
  unfold findBestSplitFor
  rcases hs : splitOnChar d text with _ | ⟨p, ps⟩
  · exact absurd hs (splitOnChar_ne_nil d text)
  · simp only
    split
    · have h := greedyJoinParts_isPrefix tok m d ps p
      rw [← joinChar_eq_flatten] at h
      rw [← hs] at h
      rw [joinChar_splitOnChar] at h
      exact h
    · simp

theorem findBestSplitFor_count_le (text : Str) (m : Int) (tok : Tokenizer)
    (d : Char) (hm : 0 ≤ m) :
    (tok.countTokens (findBestSplitFor text m tok d) : Int) ≤ m := by
  unfold findBestSplitFor
  rcases hs : splitOnChar d text with _ | ⟨p, ps⟩
  · exact absurd hs (splitOnChar_ne_nil d text)
  · simp only
    split
    · rename_i hle
      exact greedyJoinParts_count_le tok m d ps p hle
    · rw [countTokens_nil]
      exact_mod_cast hm

theorem findBestSplit_isPrefix (text : Str) (m : Int) (tok : Tokenizer)
    (ds : List Char) : findBestSplit text m tok ds <+: text := by
  unfold findBestSplit
  have hgen : ∀ (b : Str), b <+: text →
      (ds.foldl (fun bestSplit d =>
        let currentPart := findBestSplitFor text m tok d
        if currentPart.length > bestSplit.length then currentPart else bestSplit) b)
        <+: text := by
    induction ds with
    | nil => intro b h1; exact h1
    | cons d t ih =>
        intro b h1
        simp only [List.foldl_cons]
        split
        · exact ih _ (findBestSplitFor_isPrefix text m tok d)
        · exact ih b h1
  exact hgen [] (by simp)

theorem findBestSplit_spec (text : Str) (m : Int) (tok : Tokenizer)
    (ds : List Char) (hm : 0 ≤ m) :
    findBestSplit text m tok ds <+: text ∧
    (tok.countTokens (findBestSplit text m tok ds) : Int) ≤ m := by
  unfold findBestSplit
  have hgen : ∀ (b : Str), b <+: text → (tok.countTokens b : Int) ≤ m →
      (ds.foldl (fun bestSplit d =>
        let currentPart := findBestSplitFor text m tok d
        if currentPart.length > bestSplit.length then currentPart else bestSplit) b) <+: text ∧
      (tok.countTokens (ds.foldl (fun bestSplit d =>
        let currentPart := findBestSplitFor text m tok d
        if currentPart.length > bestSplit.length then currentPart else bestSplit) b) : Int) ≤ m := by
    induction ds with
    | nil => intro b h1 h2; exact ⟨h1, h2⟩
    | cons d t ih =>
        intro b h1 h2
        simp only [List.foldl_cons]
        split
        · exact ih _ (findBestSplitFor_isPrefix text m tok d)
            (findBestSplitFor_count_le text m tok d hm)
        · exact ih b h1 h2
  refine hgen [] (by simp) ?_
  rw [countTokens_nil]
  exact_mod_cast hm

theorem findCharacterSplitGo_le (tok : Tokenizer) (m : Int) (text : Str)
    (left rightPlusOne bestLength : Nat)
    (h : (tok.countTokens (text.take bestLength) : Int) ≤ m) :
    (tok.countTokens (text.take
      (findCharacterSplitGo tok m text left rightPlusOne bestLength)) : Int) ≤ m := by
  induction left, rightPlusOne, bestLength using findCharacterSplitGo.induct tok m text with
  | case1 left rightPlusOne bestLength hlt hle ih =>
      rw [findCharacterSplitGo, dif_pos hlt, if_pos hle]
      exact ih hle
  | case2 left rightPlusOne bestLength hlt hle ih =>
      rw [findCharacterSplitGo, dif_pos hlt, if_neg hle]
      exact ih h
  | case3 left rightPlusOne bestLength hlt =>
      rw [findCharacterSplitGo, dif_neg hlt]
      exact h

theorem findCharacterSplit_spec (text : Str) (m : Int) (tok : Tokenizer)
    (hm : 0 ≤ m) :
    findCharacterSplit text m tok <+: text ∧
    (tok.countTokens (findCharacterSplit text m tok) : Int) ≤ m := by
  constructor
  · exact List.take_prefix _ _
  · unfold findCharacterSplit
    apply findCharacterSplitGo_le
    simp only [List.take_zero]
    rw [countTokens_nil]
    exact_mod_cast hm

theorem chooseBestSplit_isPrefix (remainingText : Str) (m : Int)
    (tok : Tokenizer) :
    chooseBestSplit remainingText m tok <+: remainingText := by
  simp only [chooseBestSplit]
  split
  · split
    · exact List.take_prefix _ _
    · unfold findCharacterSplit
      exact List.take_prefix _ _
  · exact findBestSplit_isPrefix remainingText m tok delimiters

theorem chooseBestSplit_spec (remainingText : Str) (m : Int) (tok : Tokenizer)
    (hm : 0 ≤ m) (hne : remainingText ≠ []) :
    chooseBestSplit remainingText m tok <+: remainingText ∧
    ((tok.countTokens (chooseBestSplit remainingText m tok) : Int) ≤ m ∨
      (chooseBestSplit remainingText m tok).length = 1) := by
  refine ⟨chooseBestSplit_isPrefix remainingText m tok, ?_⟩
  have hlen : 1 ≤ remainingText.length := by
    cases remainingText
    · exact absurd rfl hne
    · simp
  simp only [chooseBestSplit]
  split
  · split
    · right
      rw [List.length_take]
      omega
    · exact Or.inl (findCharacterSplit_spec remainingText m tok hm).2
  · exact Or.inl (findBestSplit_spec remainingText m tok delimiters hm).2

theorem isPrefix_append_drop (pre l : Str) (h : pre <+: l) :
    pre ++ l.drop pre.length = l := by
  obtain ⟨t, ht⟩ := h
  subst ht
  rw [List.drop_left]

theorem splitLongLineGo_spec (lineNumber : Nat) (maxTokens : Int)
    (tok : Tokenizer) (line : Str) :
    (∀ s ∈ splitLongLineGo lineNumber maxTokens tok line,
        s.startLine = lineNumber ∧ s.endLine = lineNumber) ∧
    ((splitLongLineGo lineNumber maxTokens tok line).map (fun s => s.content)).flatten
      = line := by
  induction line using splitLongLineGo.induct lineNumber maxTokens tok with
  | case1 =>
      rw [splitLongLineGo, dif_pos rfl]
      simp
  | case2 remaining hr ih =>
      rw [splitLongLineGo, dif_neg hr]
      constructor
      · intro s hs
        rcases List.mem_cons.mp hs with h | h
        · subst h
          exact ⟨rfl, rfl⟩
        · exact ih.1 s h
      · simp only [List.map_cons, List.flatten_cons]
        rw [ih.2]
        exact isPrefix_append_drop _ remaining
          (chooseBestSplit_isPrefix remaining maxTokens tok)

theorem splitLongLineGo_budget (lineNumber : Nat) (maxTokens : Int)
    (tok : Tokenizer) (hm : 0 ≤ maxTokens) (line : Str) :
    ∀ s ∈ splitLongLineGo lineNumber maxTokens tok line,
      (s.tokenCount : Int) ≤ maxTokens ∨ s.content.length = 1 := by
  induction line using splitLongLineGo.induct lineNumber maxTokens tok with
  | case1 =>
      rw [splitLongLineGo, dif_pos rfl]
      simp
  | case2 remaining hr ih =>
      rw [splitLongLineGo, dif_neg hr]
      intro s hs
      rcases List.mem_cons.mp hs with h | h
      · subst h
        simp only
        rcases (chooseBestSplit_spec remaining maxTokens tok hm hr).2 with h₁ | h₁
        · exact Or.inl h₁
        · exact Or.inr h₁
      · exact ih s h

theorem splitLongLineGo_ne_nil (lineNumber : Nat) (maxTokens : Int)
    (tok : Tokenizer) (remaining : Str) (hr : remaining ≠ []) :
    splitLongLineGo lineNumber maxTokens tok remaining ≠ [] := by
  unfold splitLongLineGo
  rw [dif_neg hr]
  simp

/-!
Budget lemmas: every stored tokenCount respects the budget except for the
single-character fallback fragments.
-/

theorem mem_flushChunk (chunks : List CodeSplit) (lines : List Str)
    (a b n : Nat) (s : CodeSplit) (h : s ∈ flushChunk chunks lines a b n) :
    s ∈ chunks ∨ s = ⟨joinChar '\n' lines, a, b, n⟩ := by
  simp only [flushChunk] at h
  split at h
  · exact Or.inl h
  · split at h
    · exact Or.inl h
    · rcases List.mem_append.mp h with h₁ | h₁
      · exact Or.inl h₁
      · exact Or.inr (List.mem_singleton.mp h₁)

theorem splitCodeLoop_budget (tok : Tokenizer) (M : Int) (S : Nat)
    (hm : (1 : Int) ≤ M) (lines : List Str) :
    ∀ (i : Nat) (st : SplitState),
    (∀ s ∈ st.splits, (s.tokenCount : Int) ≤ M ∨ s.content.length = 1) →
    (st.currentTokenCount : Int) ≤ M →
    (st.currentChunk = [] → st.currentTokenCount = 0) →
    (∀ s ∈ (splitCodeLoop tok M S lines i st).splits,
        (s.tokenCount : Int) ≤ M ∨ s.content.length = 1) ∧
    ((splitCodeLoop tok M S lines i st).currentTokenCount : Int) ≤ M ∧
    ((splitCodeLoop tok M S lines i st).currentChunk = [] →
        (splitCodeLoop tok M S lines i st).currentTokenCount = 0) := by
  induction lines with
  | nil =>
      intro i st h1 h2 h3
      simp only [splitCodeLoop]
      exact ⟨h1, h2, h3⟩
  | cons line rest ih =>
      intro i st h1 h2 h3
      simp only [splitCodeLoop]
      split
      · -- blank line: appended to the pending buffer
        exact ih (i + 1) _ h1 h2 (by simp)
      · split
        · -- oversized line
          rename_i hblank hbig
          split
          · -- pending buffer empty: no flush
            rename_i hempty
            refine ih (i + 1) _ ?_ h2 (fun he => h3 hempty)
            intro s hs
            rcases List.mem_append.mp hs with h₁ | h₁
            · exact h1 s h₁
            · exact splitLongLineGo_budget (S + i) M tok (by omega) line s h₁
          · -- flush the pending buffer, then the line fragments
            refine ih (i + 1) _ ?_ (by show ((0 : Nat) : Int) ≤ M; omega) (fun _ => rfl)
            intro s hs
            rcases List.mem_append.mp hs with h₁ | h₁
            · rcases mem_flushChunk _ _ _ _ _ s h₁ with h₂ | h₂
              · exact h1 s h₂
              · subst h₂
                exact Or.inl h2
            · exact splitLongLineGo_budget (S + i) M tok (by omega) line s h₁
        · split
          · -- overflow: flush and start a fresh buffer with this line
            rename_i hblank hsmall hover
            refine ih (i + 1) _ ?_ ?_ (by simp)
            · intro s hs
              rcases mem_flushChunk _ _ _ _ _ s hs with h₂ | h₂
              · exact h1 s h₂
              · subst h₂
                exact Or.inl h2
            · simp only
              omega
          · -- the line still fits: append it to the buffer
            rename_i hblank hsmall hfit
            refine ih (i + 1) _ h1 ?_ (by simp)
            simp only
            rcases Decidable.not_and_iff_or_not.mp hfit with h₄ | h₄
            · omega
            · have hce : st.currentChunk = [] := Decidable.not_not.mp h₄
              have := h3 hce
              omega

theorem splitCode_budget (options : SplitOptions)
    (hm : (1 : Int) ≤ options.maxTokens) (ss : List CodeSplit)
    (h : splitCode options = Except.ok ss) :
    ∀ s ∈ ss, (s.tokenCount : Int) ≤ options.maxTokens ∨ s.content.length = 1 := by
  simp only [splitCode] at h
  split at h
  · cases h
    simp
  · split at h
    · cases h
    · have hloop := splitCodeLoop_budget options.tokenizer options.maxTokens
        options.startLine hm (splitOnChar '\n' options.sourceCode) 0
        ⟨[], [], options.startLine, 0⟩ (by simp)
        (by show ((0 : Nat) : Int) ≤ options.maxTokens; omega) (by simp)
      rw [Except.ok.injEq] at h
      subst h
      split
      · exact hloop.1
      · intro s hs
        rcases mem_flushChunk _ _ _ _ _ s hs with h₂ | h₂
        · exact hloop.1 s h₂
        · subst h₂
          exact Or.inl hloop.2.1

theorem processGapContent_budget (gapContent : Str) (a b : Nat)
    (filePath language : Str) (M : Int) (tok : Tokenizer)
    (hm : (1 : Int) ≤ M) (cs : List FileChunk)
    (h : processGapContent gapContent a b filePath language M tok = Except.ok cs) :
    ∀ c ∈ cs, (c.tokenCount : Int) ≤ M ∨ c.content.length = 1 := by
  simp only [processGapContent] at h
  split at h
  · rename_i hfit
    rw [Except.ok.injEq] at h
    subst h
    intro c hc
    rw [List.mem_singleton] at hc
    subst hc
    exact Or.inl hfit
  · split at h
    · cases h
    · rename_i splits hsplit
      rw [Except.ok.injEq] at h
      subst h
      intro c hc
      rcases List.mem_map.mp hc with ⟨sp, hsp, heq⟩
      subst heq
      exact splitCode_budget _ hm splits hsplit sp hsp

theorem processASTNodeContent_budget (node : EnhancedASTNode)
    (filePath language : Str) (M : Int) (tok : Tokenizer)
    (hm : (1 : Int) ≤ M) (cs : List FileChunk)
    (h : processASTNodeContent node filePath language M tok = Except.ok cs) :
    ∀ c ∈ cs, (c.tokenCount : Int) ≤ M ∨ c.content.length = 1 := by
  simp only [processASTNodeContent] at h
  split at h
  · rename_i hfit
    rw [Except.ok.injEq] at h
    subst h
    intro c hc
    rw [List.mem_singleton] at hc
    subst hc
    exact Or.inl hfit
  · split at h
    · cases h
    · rename_i splits hsplit
      rw [Except.ok.injEq] at h
      subst h
      intro c hc
      rcases List.mem_map.mp hc with ⟨sp, hsp, heq⟩
      subst heq
      exact splitCode_budget _ hm splits hsplit sp hsp

theorem processFileWithCursorGo_budget (sourceLines : List Str)
    (filePath language : Str) (M : Int) (tok : Tokenizer)
    (hm : (1 : Int) ≤ M) (nodes : List EnhancedASTNode) :
    ∀ (cursor : Nat) (chunks : List FileChunk),
    (∀ c ∈ chunks, (c.tokenCount : Int) ≤ M ∨ c.content.length = 1) →
    ∀ out, processFileWithCursorGo sourceLines filePath language M tok
        nodes cursor chunks = Except.ok out →
    ∀ c ∈ out, (c.tokenCount : Int) ≤ M ∨ c.content.length = 1 := by
  induction nodes with
  | nil =>
      intro cursor chunks hch out h c hc
      simp only [processFileWithCursorGo] at h
      split at h
      · split at h
        · rw [Except.ok.injEq] at h
          subst h
          exact hch c hc
        · split at h
          · cases h
          · rename_i t ht
            rw [Except.ok.injEq] at h
            subst h
            rcases List.mem_append.mp hc with h₁ | h₁
            · exact hch c h₁
            · exact processGapContent_budget _ _ _ _ _ _ _ hm _ ht c h₁
      · rw [Except.ok.injEq] at h
        subst h
        exact hch c hc
  | cons node rest ih =>
      intro cursor chunks hch out h c hc
      simp only [processFileWithCursorGo] at h
      split at h
      · cases h
      · rename_i chunks₁ hgap
        split at h
        · cases h
        · rename_i nodeChunks hnode
          have hch₁ : ∀ c ∈ chunks₁, (c.tokenCount : Int) ≤ M ∨ c.content.length = 1 := by
            split at hgap
            · split at hgap
              · rw [Except.ok.injEq] at hgap
                subst hgap
                exact hch
              · split at hgap
                · cases hgap
                · rename_i t ht
                  rw [Except.ok.injEq] at hgap
                  subst hgap
                  intro x hx
                  rcases List.mem_append.mp hx with h₁ | h₁
                  · exact hch x h₁
                  · exact processGapContent_budget _ _ _ _ _ _ _ hm _ ht x h₁
            · rw [Except.ok.injEq] at hgap
              subst hgap
              exact hch
          refine ih _ _ ?_ out h c hc
          intro x hx
          rcases List.mem_append.mp hx with h₁ | h₁
          · exact hch₁ x h₁
          · exact processASTNodeContent_budget _ _ _ _ _ hm _ hnode x h₁

theorem processFileWithCursor_budget (fileContent : Str)
    (astNodes : List EnhancedASTNode) (filePath language : Str) (M : Int)
    (tok : Tokenizer) (hm : (1 : Int) ≤ M) (out : List FileChunk)
    (h : processFileWithCursor fileContent astNodes filePath language M tok
        = Except.ok out) :
    ∀ c ∈ out, (c.tokenCount : Int) ≤ M ∨ c.content.length = 1 := by
  simp only [processFileWithCursor] at h
  split at h
  · cases h
  · rename_i chunks hgo
    rw [Except.ok.injEq] at h
    subst h
    intro c hc
    have hmem : c ∈ chunks := (List.perm_insertionSort chunkRel chunks).mem_iff.mp hc
    exact processFileWithCursorGo_budget _ _ _ _ _ hm _ _ _ (by simp) _ hgo c hmem

/-!
List indexing helpers for the coverage proof.
-/

theorem getD_mem_of_lt (L : List Str) (j : Nat) (h : j < L.length) :
    L.getD j [] ∈ L := by
  have h1 : L.getD j [] = L[j] := by
    simp [List.getD_eq_getElem?_getD, List.getElem?_eq_getElem h]
  rw [h1]
  exact List.getElem_mem h

theorem getD_take_drop (L : List Str) (k i m : Nat) (h1 : k + m < i)
    (h2 : i ≤ L.length) :
    ((L.take i).drop k).getD m [] = L.getD (k + m) [] := by
  rw [List.getD_eq_getElem?_getD, List.getD_eq_getElem?_getD]
  rw [List.getElem?_drop]
  rw [List.getElem?_take, if_pos h1]

theorem getD_mem_take_drop (L : List Str) (k i j : Nat) (h1 : k ≤ j) (h2 : j < i)
    (h3 : i ≤ L.length) : L.getD j [] ∈ (L.take i).drop k := by
  have hm : j - k < ((L.take i).drop k).length := by
    rw [List.length_drop, List.length_take]
    omega
  have he : ((L.take i).drop k).getD (j - k) [] = L.getD j [] := by
    rw [getD_take_drop L k i (j - k) (by omega) h3]
    congr 1
    omega
  rw [← he]
  exact getD_mem_of_lt _ _ hm

theorem take_succ_drop_eq (L : List Str) (i k : Nat) (hk : k ≤ i)
    (hi : i < L.length) :
    (L.take (i + 1)).drop k = (L.take i).drop k ++ [L.getD i []] := by
  rw [List.take_succ]
  rw [List.getElem?_eq_getElem hi]
  rw [List.drop_append_of_le_length (by rw [List.length_take]; omega)]
  have h1 : L.getD i [] = L[i] := by
    simp [List.getD_eq_getElem?_getD, List.getElem?_eq_getElem hi]
  rw [h1]
  rfl

theorem take_drop_eq_nil_iff (L : List Str) (i k : Nat) (hi : i ≤ L.length) :
    ((L.take i).drop k = []) ↔ i ≤ k := by
  constructor
  · intro h
    have := congrArg List.length h
    rw [List.length_drop, List.length_take] at this
    simp at this
    omega
  · intro h
    apply List.drop_eq_nil_of_le
    rw [List.length_take]
    omega

theorem drop_succ_of_drop_cons (L : List Str) (i : Nat) (line : Str)
    (rest : List Str) (h : L.drop i = line :: rest) :
    i < L.length ∧ L.getD i [] = line ∧ L.drop (i + 1) = rest := by
  have hlen : i < L.length := by
    by_contra hc
    rw [List.drop_eq_nil_of_le (by omega)] at h
    cases h
  refine ⟨hlen, ?_, ?_⟩
  · rw [List.getD_eq_getElem?_getD]
    have h0 := List.getElem?_drop L i 0
    rw [Nat.add_zero, h] at h0
    rw [← h0]
    simp
  · have h1 : L.drop (i + 1) = (L.drop i).drop 1 := by
      rw [List.drop_drop]
    rw [h1, h]
    rfl

theorem getD_mem_drop (L : List Str) (k j : Nat) (h1 : k ≤ j)
    (h2 : j < L.length) : L.getD j [] ∈ L.drop k := by
  have h := getD_mem_take_drop L k L.length j h1 h2 (Nat.le_refl _)
  rwa [List.take_length] at h

theorem mem_of_mem_take_drop (L : List Str) (i k : Nat) (x : Str)
    (h : x ∈ (L.take i).drop k) : x ∈ L :=
  ((List.drop_sublist k (L.take i)).trans (List.take_sublist i L)).mem h

theorem CoversCS_append_left (ss ts : List CodeSplit) (j : Nat)
    (h : CoversCS ss j) : CoversCS (ss ++ ts) j := by
  obtain ⟨s, hs, h1, h2⟩ := h
  exact ⟨s, List.mem_append_left ts hs, h1, h2⟩

theorem CoversCS_append_right (ss ts : List CodeSplit) (j : Nat)
    (h : CoversCS ts j) : CoversCS (ss ++ ts) j := by
  obtain ⟨s, hs, h1, h2⟩ := h
  exact ⟨s, List.mem_append_right ss hs, h1, h2⟩

theorem CoversLine_append_left (cs ts : List FileChunk) (j : Nat)
    (h : CoversLine cs j) : CoversLine (cs ++ ts) j := by
  obtain ⟨c, hc, h1, h2⟩ := h
  exact ⟨c, List.mem_append_left ts hc, h1, h2⟩

theorem CoversLine_append_right (cs ts : List FileChunk) (j : Nat)
    (h : CoversLine ts j) : CoversLine (cs ++ ts) j := by
  obtain ⟨c, hc, h1, h2⟩ := h
  exact ⟨c, List.mem_append_right cs hc, h1, h2⟩

theorem isBlank_piece_of_isBlank (s : Str) (j : Nat) (hs : isBlank s = true) :
    isBlank ((splitOnChar '\n' s).getD j []) = true := by
  by_cases hj : j < (splitOnChar '\n' s).length
  · rw [isBlank_iff_forall]
    intro ch hch
    have hmem : (splitOnChar '\n' s).getD j [] ∈ splitOnChar '\n' s :=
      getD_mem_of_lt _ _ hj
    have hjoin : ch ∈ joinChar '\n' (splitOnChar '\n' s) :=
      mem_joinChar_of_mem '\n' _ _ ch hmem hch
    rw [joinChar_splitOnChar] at hjoin
    exact (isBlank_iff_forall s).mp hs ch hjoin
  · rw [List.getD_eq_getElem?_getD, List.getElem?_eq_none (by omega)]
    exact isBlank_nil

theorem flushChunk_spans (splits : List CodeSplit) (lines : List Str)
    (a b n S : Nat)
    (hpw : List.Pairwise CSpanRel splits)
    (hbounds : ∀ s ∈ splits, S ≤ s.startLine ∧ s.startLine ≤ s.endLine ∧
        s.endLine + 1 ≤ a)
    (hS : S ≤ a) (hab : a ≤ b) :
    List.Pairwise CSpanRel (flushChunk splits lines a b n) ∧
    (∀ s ∈ flushChunk splits lines a b n,
        S ≤ s.startLine ∧ s.startLine ≤ s.endLine ∧ s.endLine + 1 ≤ b + 1) ∧
    (∀ j, a ≤ j → j ≤ b → CoversCS (flushChunk splits lines a b n) j ∨
        isBlank (joinChar '\n' lines) = true) ∧
    (∀ j, CoversCS splits j → CoversCS (flushChunk splits lines a b n) j) := by
  simp only [flushChunk]
  split
  · rename_i hl
    subst hl
    refine ⟨hpw, ?_, ?_, fun j hj => hj⟩
    · intro s hs
      obtain ⟨h1, h2, h3⟩ := hbounds s hs
      exact ⟨h1, h2, by omega⟩
    · intro j _ _
      exact Or.inr isBlank_nil
  · split
    · rename_i hblank
      refine ⟨hpw, ?_, fun j _ _ => Or.inr hblank, fun j hj => hj⟩
      intro s hs
      obtain ⟨h1, h2, h3⟩ := hbounds s hs
      exact ⟨h1, h2, by omega⟩
    · refine ⟨?_, ?_, ?_, ?_⟩
      · rw [List.pairwise_append]
        refine ⟨hpw, List.pairwise_singleton _ _, ?_⟩
        intro x hx y hy
        rw [List.mem_singleton] at hy
        subst hy
        have h3 := (hbounds x hx).2.2
        refine Or.inl ?_
        show x.endLine < a
        omega
      · intro s hs
        rcases List.mem_append.mp hs with h | h
        · obtain ⟨h1, h2, h3⟩ := hbounds s h
          exact ⟨h1, h2, by omega⟩
        · rw [List.mem_singleton] at h
          subst h
          exact ⟨hS, hab, Nat.le_refl (b + 1)⟩
      · intro j hj1 hj2
        exact Or.inl ⟨_, List.mem_append_right _ (List.mem_singleton_self _),
          hj1, hj2⟩
      · intro j hj
        obtain ⟨s, hs, h1, h2⟩ := hj
        exact ⟨s, List.mem_append_left _ hs, h1, h2⟩

theorem splitCodeLoop_spans (tok : Tokenizer) (M : Int) (S : Nat)
    (L₀ : List Str) (rest : List Str) :
    ∀ (i : Nat) (st : SplitState),
    L₀.drop i = rest →
    i ≤ L₀.length →
    S ≤ st.currentStartLine →
    st.currentStartLine ≤ S + i →
    st.currentChunk = (L₀.take i).drop (st.currentStartLine - S) →
    List.Pairwise CSpanRel st.splits →
    (∀ s ∈ st.splits, S ≤ s.startLine ∧ s.startLine ≤ s.endLine ∧
        s.endLine + 1 ≤ st.currentStartLine) →
    (∀ j, S + j < st.currentStartLine →
        CoversCS st.splits (S + j) ∨ isBlank (L₀.getD j []) = true) →
    S ≤ (splitCodeLoop tok M S rest i st).currentStartLine ∧
    (splitCodeLoop tok M S rest i st).currentStartLine ≤ S + L₀.length ∧
    (splitCodeLoop tok M S rest i st).currentChunk =
      L₀.drop ((splitCodeLoop tok M S rest i st).currentStartLine - S) ∧
    List.Pairwise CSpanRel (splitCodeLoop tok M S rest i st).splits ∧
    (∀ s ∈ (splitCodeLoop tok M S rest i st).splits,
        S ≤ s.startLine ∧ s.startLine ≤ s.endLine ∧
        s.endLine + 1 ≤ (splitCodeLoop tok M S rest i st).currentStartLine) ∧
    (∀ j, S + j < (splitCodeLoop tok M S rest i st).currentStartLine →
        CoversCS (splitCodeLoop tok M S rest i st).splits (S + j) ∨
        isBlank (L₀.getD j []) = true) := by
  induction rest with
  | nil =>
      intro i st hrest hi h1 h2 hchunk hpw hbounds hcov
      have hilen : i = L₀.length := by
        have hd := congrArg List.length hrest
        rw [List.length_drop] at hd
        simp only [List.length_nil] at hd
        omega
      subst hilen
      rw [List.take_length] at hchunk
      simp only [splitCodeLoop]
      exact ⟨h1, h2, hchunk, hpw, hbounds, hcov⟩
  | cons line rest' ih =>
      intro i st hrest hi h1 h2 hchunk hpw hbounds hcov
      obtain ⟨hlen, hgetD, hdrop⟩ := drop_succ_of_drop_cons L₀ i line rest' hrest
      simp only [splitCodeLoop]
      split
      · -- blank line: appended to the pending buffer, nothing else moves
        refine ih (i + 1) _ hdrop (by omega) h1 (by
          show st.currentStartLine ≤ S + (i + 1); omega) ?_ hpw hbounds hcov
        show st.currentChunk ++ [line] = _
        rw [take_succ_drop_eq L₀ i (st.currentStartLine - S) (by omega) hlen,
          hgetD, hchunk]
      · rename_i hblank
        have hne : line ≠ [] := by
          intro he
          exact hblank (he ▸ isBlank_nil)
        have hspan : ∀ s ∈ splitLongLine line (S + i) M tok,
            s.startLine = S + i ∧ s.endLine = S + i :=
          (splitLongLineGo_spec (S + i) M tok line).1
        have hlne : splitLongLine line (S + i) M tok ≠ [] :=
          splitLongLineGo_ne_nil (S + i) M tok line hne
        have hlpw : List.Pairwise CSpanRel (splitLongLine line (S + i) M tok) :=
          List.pairwise_of_forall_mem_list (fun a ha b hb =>
            Or.inr ⟨by rw [(hspan a ha).1, (hspan b hb).1],
              by rw [(hspan a ha).2, (hspan b hb).2]⟩)
        have hlcov : CoversCS (splitLongLine line (S + i) M tok) (S + i) := by
          obtain ⟨s, hs⟩ := List.exists_mem_of_ne_nil _ hlne
          exact ⟨s, hs, le_of_eq (hspan s hs).1, le_of_eq (hspan s hs).2.symm⟩
        split
        · -- oversized line: the fragments are appended after an optional flush
          split
          · -- empty pending buffer: emit the fragments directly
            rename_i hbig hempty
            have hcsl : st.currentStartLine = S + i := by
              rw [hempty] at hchunk
              have := (take_drop_eq_nil_iff L₀ i (st.currentStartLine - S) hi).mp
                hchunk.symm
              omega
            refine ih (i + 1) _ hdrop (by omega) (by show S ≤ S + i + 1; omega)
              (by show S + i + 1 ≤ S + (i + 1); omega) ?_ ?_ ?_ ?_
            · show st.currentChunk = (L₀.take (i + 1)).drop (S + i + 1 - S)
              rw [hempty]
              have he : S + i + 1 - S = i + 1 := by omega
              rw [he]
              exact ((take_drop_eq_nil_iff L₀ (i + 1) (i + 1) (by omega)).mpr
                (Nat.le_refl _)).symm
            · show List.Pairwise CSpanRel (st.splits ++ splitLongLine line (S + i) M tok)
              rw [List.pairwise_append]
              refine ⟨hpw, hlpw, ?_⟩
              intro a ha b hb
              have h3 := (hbounds a ha).2.2
              refine Or.inl ?_
              rw [(hspan b hb).1]
              omega
            · intro s hs
              show S ≤ s.startLine ∧ s.startLine ≤ s.endLine ∧ s.endLine + 1 ≤ S + i + 1
              rcases List.mem_append.mp hs with h | h
              · obtain ⟨g1, g2, g3⟩ := hbounds s h
                exact ⟨g1, g2, by omega⟩
              · obtain ⟨g1, g2⟩ := hspan s h
                exact ⟨by omega, by omega, by omega⟩
            · intro j hj
              show CoversCS (st.splits ++ splitLongLine line (S + i) M tok) (S + j) ∨ _
              have hj' : S + j < S + i + 1 := hj
              by_cases hji : j < i
              · rcases hcov j (by omega) with h | h
                · exact Or.inl (CoversCS_append_left _ _ _ h)
                · exact Or.inr h
              · have hje : j = i := by omega
                subst hje
                exact Or.inl (CoversCS_append_right _ _ _ hlcov)
          · -- pending buffer flushed first
            rename_i hbig hempty
            have hlt : st.currentStartLine < S + i := by
              have hne' : ¬ (i ≤ st.currentStartLine - S) := by
                intro hle
                exact hempty (hchunk.trans
                  ((take_drop_eq_nil_iff L₀ i (st.currentStartLine - S) hi).mpr hle))
              omega
            obtain ⟨hFpw, hFbounds, hFcov, hFlift⟩ :=
              flushChunk_spans st.splits st.currentChunk st.currentStartLine
                (S + i - 1) st.currentTokenCount S hpw hbounds h1 (by omega)
            refine ih (i + 1) _ hdrop (by omega) (by show S ≤ S + i + 1; omega)
              (by show S + i + 1 ≤ S + (i + 1); omega) ?_ ?_ ?_ ?_
            · show ([] : List Str) = (L₀.take (i + 1)).drop (S + i + 1 - S)
              have he : S + i + 1 - S = i + 1 := by omega
              rw [he]
              exact ((take_drop_eq_nil_iff L₀ (i + 1) (i + 1) (by omega)).mpr
                (Nat.le_refl _)).symm
            · show List.Pairwise CSpanRel (_ ++ splitLongLine line (S + i) M tok)
              rw [List.pairwise_append]
              refine ⟨hFpw, hlpw, ?_⟩
              intro a ha b hb
              have h3 := (hFbounds a ha).2.2
              refine Or.inl ?_
              rw [(hspan b hb).1]
              omega
            · intro s hs
              show S ≤ s.startLine ∧ s.startLine ≤ s.endLine ∧ s.endLine + 1 ≤ S + i + 1
              rcases List.mem_append.mp hs with h | h
              · obtain ⟨g1, g2, g3⟩ := hFbounds s h
                exact ⟨g1, g2, by omega⟩
              · obtain ⟨g1, g2⟩ := hspan s h
                exact ⟨by omega, by omega, by omega⟩
            · intro j hj
              show CoversCS (_ ++ splitLongLine line (S + i) M tok) (S + j) ∨ _
              have hj' : S + j < S + i + 1 := hj
              by_cases hji : S + j < st.currentStartLine
              · rcases hcov j hji with h | h
                · exact Or.inl (CoversCS_append_left _ _ _ (hFlift _ h))
                · exact Or.inr h
              · by_cases hji₂ : j < i
                · rcases hFcov (S + j) (by omega) (by omega) with h | h
                  · exact Or.inl (CoversCS_append_left _ _ _ h)
                  · refine Or.inr ?_
                    have hmem : L₀.getD j [] ∈ st.currentChunk := by
                      rw [hchunk]
                      exact getD_mem_take_drop L₀ (st.currentStartLine - S) i j
                        (by omega) hji₂ hi
                    exact ((isBlank_joinChar '\n' (by decide) st.currentChunk).mp h)
                      _ hmem
                · have hje : j = i := by omega
                  subst hje
                  exact Or.inl (CoversCS_append_right _ _ _ hlcov)
        · split
          · -- budget overflow: flush the pending buffer, restart with this line
            rename_i hsmall hover
            have hempty : st.currentChunk ≠ [] := hover.2
            have hlt : st.currentStartLine < S + i := by
              have hne' : ¬ (i ≤ st.currentStartLine - S) := by
                intro hle
                exact hempty (hchunk.trans
                  ((take_drop_eq_nil_iff L₀ i (st.currentStartLine - S) hi).mpr hle))
              omega
            obtain ⟨hFpw, hFbounds, hFcov, hFlift⟩ :=
              flushChunk_spans st.splits st.currentChunk st.currentStartLine
                (S + i - 1) st.currentTokenCount S hpw hbounds h1 (by omega)
            refine ih (i + 1) _ hdrop (by omega) (by show S ≤ S + i; omega)
              (by show S + i ≤ S + (i + 1); omega) ?_ hFpw ?_ ?_
            · show [line] = (L₀.take (i + 1)).drop (S + i - S)
              have he : S + i - S = i := by omega
              rw [he, take_succ_drop_eq L₀ i i (Nat.le_refl i) hlen, hgetD,
                (take_drop_eq_nil_iff L₀ i i (by omega)).mpr (Nat.le_refl i)]
              rfl
            · intro s hs
              show S ≤ s.startLine ∧ s.startLine ≤ s.endLine ∧ s.endLine + 1 ≤ S + i
              obtain ⟨g1, g2, g3⟩ := hFbounds s hs
              exact ⟨g1, g2, by omega⟩
            · intro j hj
              have hj' : S + j < S + i := hj
              by_cases hji : S + j < st.currentStartLine
              · rcases hcov j hji with h | h
                · exact Or.inl (hFlift _ h)
                · exact Or.inr h
              · rcases hFcov (S + j) (by omega) (by omega) with h | h
                · exact Or.inl h
                · refine Or.inr ?_
                  have hmem : L₀.getD j [] ∈ st.currentChunk := by
                    rw [hchunk]
                    exact getD_mem_take_drop L₀ (st.currentStartLine - S) i j
                      (by omega) (by omega) hi
                  exact ((isBlank_joinChar '\n' (by decide) st.currentChunk).mp h)
                    _ hmem
          · -- the line fits: append it to the pending buffer
            refine ih (i + 1) _ hdrop (by omega) h1 (by
              show st.currentStartLine ≤ S + (i + 1); omega) ?_ hpw hbounds hcov
            show st.currentChunk ++ [line] = _
            rw [take_succ_drop_eq L₀ i (st.currentStartLine - S) (by omega) hlen,
              hgetD, hchunk]

theorem splitCode_spans (options : SplitOptions) (ss : List CodeSplit)
    (h : splitCode options = Except.ok ss) :
    List.Pairwise CSpanRel ss ∧
    (∀ s ∈ ss, options.startLine ≤ s.startLine ∧ s.startLine ≤ s.endLine ∧
        s.endLine + 1 ≤
          options.startLine + (splitOnChar '\n' options.sourceCode).length) ∧
    (∀ j, j < (splitOnChar '\n' options.sourceCode).length →
        CoversCS ss (options.startLine + j) ∨
        isBlank ((splitOnChar '\n' options.sourceCode).getD j []) = true) := by
  simp only [splitCode] at h
  split at h
  · rename_i hblank
    rw [Except.ok.injEq] at h
    subst h
    refine ⟨List.Pairwise.nil, by simp, ?_⟩
    intro j hj
    exact Or.inr (isBlank_piece_of_isBlank _ j hblank)
  · split at h
    · cases h
    · obtain ⟨g1, g2, g3, g4, g5, g6⟩ := splitCodeLoop_spans options.tokenizer
        options.maxTokens options.startLine (splitOnChar '\n' options.sourceCode)
        (splitOnChar '\n' options.sourceCode) 0 ⟨[], [], options.startLine, 0⟩
        rfl (Nat.zero_le _) (Nat.le_refl _) (Nat.le_add_right _ 0) (by simp)
        List.Pairwise.nil (by simp)
        (fun j hj => absurd hj (Nat.not_lt.mpr (Nat.le_add_right _ j)))
      rw [Except.ok.injEq] at h
      subst h
      split
      · rename_i hfin
        have hnil := g3 ▸ hfin
        have hlen := congrArg List.length hnil
        rw [List.length_drop] at hlen
        simp only [List.length_nil] at hlen
        refine ⟨g4, ?_, ?_⟩
        · intro s hs
          obtain ⟨b1, b2, b3⟩ := g5 s hs
          exact ⟨b1, b2, by omega⟩
        · intro j hj
          exact g6 j (by omega)
      · rename_i hfin
        have hlt : (splitCodeLoop options.tokenizer options.maxTokens
              options.startLine (splitOnChar '\n' options.sourceCode) 0
              ⟨[], [], options.startLine, 0⟩).currentStartLine
            < options.startLine + (splitOnChar '\n' options.sourceCode).length := by
          by_contra hc
          refine hfin (g3.trans (List.drop_eq_nil_of_le ?_))
          omega
        obtain ⟨hFpw, hFbounds, hFcov, hFlift⟩ := flushChunk_spans _ _ _
          (options.startLine + (splitOnChar '\n' options.sourceCode).length - 1)
          _ options.startLine g4 g5 g1 (by omega)
        refine ⟨hFpw, ?_, ?_⟩
        · intro s hs
          obtain ⟨b1, b2, b3⟩ := hFbounds s hs
          exact ⟨b1, b2, by omega⟩
        · intro j hj
          by_cases hji : options.startLine + j
              < (splitCodeLoop options.tokenizer options.maxTokens
                  options.startLine (splitOnChar '\n' options.sourceCode) 0
                  ⟨[], [], options.startLine, 0⟩).currentStartLine
          · rcases g6 j hji with hcv | hcv
            · exact Or.inl (hFlift _ hcv)
            · exact Or.inr hcv
          · rcases hFcov (options.startLine + j) (by omega) (by omega) with hcv | hcv
            · exact Or.inl hcv
            · refine Or.inr ?_
              have hmem : (splitOnChar '\n' options.sourceCode).getD j []
                  ∈ (splitCodeLoop options.tokenizer options.maxTokens
                      options.startLine (splitOnChar '\n' options.sourceCode) 0
                      ⟨[], [], options.startLine, 0⟩).currentChunk := by
                rw [g3]
                exact getD_mem_drop _ _ j (by omega) hj
              exact ((isBlank_joinChar '\n' (by decide) _).mp hcv) _ hmem

theorem processASTNodeContent_spans (node : EnhancedASTNode)
    (filePath language : Str) (M : Int) (tok : Tokenizer) (L : List Str)
    (cs : List FileChunk)
    (hsr : node.startPosition.row ≤ node.endPosition.row)
    (her : node.endPosition.row < L.length)
    (htext : splitOnChar '\n' node.text =
        (L.take (node.endPosition.row + 1)).drop node.startPosition.row)
    (h : processASTNodeContent node filePath language M tok = Except.ok cs) :
    List.Pairwise ChunkSpanRel cs ∧
    (∀ c ∈ cs, node.startPosition.row + 1 ≤ c.startLine ∧
        c.startLine ≤ c.endLine ∧ c.endLine ≤ node.endPosition.row + 1) ∧
    (∀ l, node.startPosition.row + 1 ≤ l → l ≤ node.endPosition.row + 1 →
        CoversLine cs l ∨ isBlank (L.getD (l - 1) []) = true) := by
  have hslen : (splitOnChar '\n' node.text).length
      = node.endPosition.row + 1 - node.startPosition.row := by
    rw [htext, List.length_drop, List.length_take]
    omega
  simp only [processASTNodeContent] at h
  split at h
  · rw [Except.ok.injEq] at h
    subst h
    refine ⟨List.pairwise_singleton _ _, ?_, ?_⟩
    · intro c hc
      rw [List.mem_singleton] at hc
      subst hc
      exact ⟨Nat.le_refl _, Nat.succ_le_succ hsr, Nat.le_refl _⟩
    · intro l hl1 hl2
      exact Or.inl ⟨_, List.mem_singleton_self _, hl1, hl2⟩
  · split at h
    · cases h
    · rename_i splits hsplit
      rw [Except.ok.injEq] at h
      subst h
      obtain ⟨g1, g2, g3⟩ := splitCode_spans _ splits hsplit
      have hSL : (⟨node.text, node.startPosition.row + 1, M, tok⟩
          : SplitOptions).startLine = node.startPosition.row + 1 := rfl
      have hSC : (⟨node.text, node.startPosition.row + 1, M, tok⟩
          : SplitOptions).sourceCode = node.text := rfl
      rw [hSL, hSC] at g2
      rw [hSL, hSC] at g3
      rw [hslen] at g2 g3
      refine ⟨?_, ?_, ?_⟩
      · rw [List.pairwise_map]
        exact List.Pairwise.imp (fun hab => hab) g1
      · intro c hc
        rcases List.mem_map.mp hc with ⟨sp, hsp, heq⟩
        subst heq
        obtain ⟨b1, b2, b3⟩ := g2 sp hsp
        refine ⟨b1, b2, ?_⟩
        show sp.endLine ≤ node.endPosition.row + 1
        omega
      · intro l hl1 hl2
        rcases g3 (l - (node.startPosition.row + 1)) (by omega) with hcv | hcv
        · obtain ⟨sp, hsp, hc1, hc2⟩ := hcv
          refine Or.inl ⟨_, List.mem_map_of_mem _ hsp, ?_, ?_⟩
          · show sp.startLine ≤ l
            omega
          · show l ≤ sp.endLine
            omega
        · refine Or.inr ?_
          rw [htext, getD_take_drop L node.startPosition.row
            (node.endPosition.row + 1) (l - (node.startPosition.row + 1))
            (by omega) (by omega)] at hcv
          have he : node.startPosition.row + (l - (node.startPosition.row + 1))
              = l - 1 := by omega
          rw [he] at hcv
          exact hcv

theorem processGapContent_spans (gapContent : Str) (a b : Nat)
    (filePath language : Str) (M : Int) (tok : Tokenizer) (L : List Str)
    (cs : List FileChunk)
    (ha : 1 ≤ a) (hb : b ≤ L.length)
    (hsplit : splitOnChar '\n' gapContent = (L.take b).drop (a - 1))
    (h : processGapContent gapContent a b filePath language M tok = Except.ok cs) :
    List.Pairwise ChunkSpanRel cs ∧
    (∀ c ∈ cs, a ≤ c.startLine ∧ c.startLine ≤ c.endLine ∧ c.endLine ≤ b) ∧
    (∀ l, a ≤ l → l ≤ b → CoversLine cs l ∨ isBlank (L.getD (l - 1) []) = true) := by
  have hne := splitOnChar_ne_nil '\n' gapContent
  rw [hsplit] at hne
  have hab : a ≤ b := by
    by_contra hc
    exact hne ((take_drop_eq_nil_iff L b (a - 1) hb).mpr (by omega))
  have hslen : (splitOnChar '\n' gapContent).length = b - (a - 1) := by
    rw [hsplit, List.length_drop, List.length_take]
    omega
  simp only [processGapContent] at h
  split at h
  · rw [Except.ok.injEq] at h
    subst h
    refine ⟨List.pairwise_singleton _ _, ?_, ?_⟩
    · intro c hc
      rw [List.mem_singleton] at hc
      subst hc
      exact ⟨Nat.le_refl _, hab, Nat.le_refl _⟩
    · intro l hl1 hl2
      exact Or.inl ⟨_, List.mem_singleton_self _, hl1, hl2⟩
  · split at h
    · cases h
    · rename_i splits hsplitc
      rw [Except.ok.injEq] at h
      subst h
      obtain ⟨g1, g2, g3⟩ := splitCode_spans _ splits hsplitc
      have hSL : (⟨gapContent, a, M, tok⟩ : SplitOptions).startLine = a := rfl
      have hSC : (⟨gapContent, a, M, tok⟩
          : SplitOptions).sourceCode = gapContent := rfl
      rw [hSL, hSC] at g2
      rw [hSL, hSC] at g3
      rw [hslen] at g2 g3
      refine ⟨?_, ?_, ?_⟩
      · rw [List.pairwise_map]
        exact List.Pairwise.imp (fun hab₂ => hab₂) g1
      · intro c hc
        rcases List.mem_map.mp hc with ⟨sp, hsp, heq⟩
        subst heq
        obtain ⟨b1, b2, b3⟩ := g2 sp hsp
        refine ⟨b1, b2, ?_⟩
        show sp.endLine ≤ b
        omega
      · intro l hl1 hl2
        rcases g3 (l - a) (by omega) with hcv | hcv
        · obtain ⟨sp, hsp, hc1, hc2⟩ := hcv
          refine Or.inl ⟨_, List.mem_map_of_mem _ hsp, ?_, ?_⟩
          · show sp.startLine ≤ l
            omega
          · show l ≤ sp.endLine
            omega
        · refine Or.inr ?_
          rw [hsplit, getD_take_drop L (a - 1) b (l - a) (by omega) hb] at hcv
          have he : a - 1 + (l - a) = l - 1 := by omega
          rw [he] at hcv
          exact hcv

theorem processFileWithCursorGo_spans (L : List Str) (filePath language : Str)
    (M : Int) (tok : Tokenizer) (hfree : ∀ x ∈ L, '\n' ∉ x)
    (nodes : List EnhancedASTNode) :
    ∀ (cursor : Nat) (chunks : List FileChunk),
    1 ≤ cursor →
    cursor ≤ L.length + 1 →
    (∀ nd ∈ nodes, cursor ≤ nd.startPosition.row + 1 ∧
        nd.startPosition.row ≤ nd.endPosition.row ∧
        nd.endPosition.row < L.length ∧
        splitOnChar '\n' nd.text
          = (L.take (nd.endPosition.row + 1)).drop nd.startPosition.row) →
    List.Pairwise (fun a b => a.endPosition.row < b.startPosition.row) nodes →
    List.Pairwise ChunkSpanRel chunks →
    (∀ c ∈ chunks, 1 ≤ c.startLine ∧ c.startLine ≤ c.endLine ∧
        c.endLine + 1 ≤ cursor) →
    (∀ l, 1 ≤ l → l < cursor → CoversLine chunks l ∨
        isBlank (L.getD (l - 1) []) = true) →
    ∀ out, processFileWithCursorGo L filePath language M tok nodes cursor chunks
        = Except.ok out →
    List.Pairwise ChunkSpanRel out ∧
    (∀ c ∈ out, 1 ≤ c.startLine ∧ c.startLine ≤ c.endLine ∧
        c.endLine ≤ L.length) ∧
    (∀ l, 1 ≤ l → l ≤ L.length → CoversLine out l ∨
        isBlank (L.getD (l - 1) []) = true) := by
  induction nodes with
  | nil =>
      intro cursor chunks hc1 hc2 hnds hndpw hpw hbounds hcov out h
      simp only [processFileWithCursorGo] at h
      split at h
      · rename_i hcle
        split at h
        · rename_i hblank
          rw [Except.ok.injEq] at h
          subst h
          refine ⟨hpw, ?_, ?_⟩
          · intro c hc
            obtain ⟨b1, b2, b3⟩ := hbounds c hc
            exact ⟨b1, b2, by omega⟩
          · intro l hl1 hl2
            by_cases hlc : l < cursor
            · exact hcov l hl1 hlc
            · refine Or.inr ?_
              have hmem : L.getD (l - 1) [] ∈ L.drop (cursor - 1) :=
                getD_mem_drop L (cursor - 1) (l - 1) (by omega) (by omega)
              exact ((isBlank_joinChar '\n' (by decide) _).mp hblank) _ hmem
        · rename_i hblank
          split at h
          · cases h
          · rename_i t ht
            rw [Except.ok.injEq] at h
            subst h
            have hdropne : L.drop (cursor - 1) ≠ [] := by
              intro hdn
              have hdl := congrArg List.length hdn
              rw [List.length_drop] at hdl
              simp only [List.length_nil] at hdl
              omega
            have hspk : splitOnChar '\n' (joinChar '\n' (L.drop (cursor - 1)))
                = (L.take L.length).drop (cursor - 1) := by
              rw [List.take_length]
              exact splitOnChar_joinChar '\n' _ hdropne
                (fun x hx => hfree x ((List.drop_sublist _ _).mem hx))
            obtain ⟨gpw, gbounds, gcov⟩ := processGapContent_spans _ cursor
              L.length filePath language M tok L t hc1 (Nat.le_refl _) hspk ht
            refine ⟨?_, ?_, ?_⟩
            · rw [List.pairwise_append]
              refine ⟨hpw, gpw, ?_⟩
              intro a ha b hb
              have h3 := (hbounds a ha).2.2
              have h4 := (gbounds b hb).1
              exact Or.inl (by omega)
            · intro c hc
              rcases List.mem_append.mp hc with hm | hm
              · obtain ⟨b1, b2, b3⟩ := hbounds c hm
                exact ⟨b1, b2, by omega⟩
              · obtain ⟨b1, b2, b3⟩ := gbounds c hm
                exact ⟨by omega, b2, b3⟩
            · intro l hl1 hl2
              by_cases hlc : l < cursor
              · rcases hcov l hl1 hlc with hcv | hcv
                · exact Or.inl (CoversLine_append_left _ _ _ hcv)
                · exact Or.inr hcv
              · rcases gcov l (by omega) hl2 with hcv | hcv
                · exact Or.inl (CoversLine_append_right _ _ _ hcv)
                · exact Or.inr hcv
      · rename_i hcgt
        rw [Except.ok.injEq] at h
        subst h
        refine ⟨hpw, ?_, ?_⟩
        · intro c hc
          obtain ⟨b1, b2, b3⟩ := hbounds c hc
          exact ⟨b1, b2, by omega⟩
        · intro l hl1 hl2
          exact hcov l hl1 (by omega)
  | cons node rest ih =>
      intro cursor chunks hc1 hc2 hnds hndpw hpw hbounds hcov out h
      obtain ⟨hcur, hsr, her, htext⟩ := hnds node (List.mem_cons_self node rest)
      obtain ⟨hhead, htail⟩ := List.pairwise_cons.mp hndpw
      simp only [processFileWithCursorGo] at h
      rw [Nat.add_sub_cancel] at h
      split at h
      · cases h
      · rename_i chunks₁ hgap
        split at h
        · cases h
        · rename_i nodeChunks hnode
          obtain ⟨npw, nbounds, ncov⟩ := processASTNodeContent_spans node
            filePath language M tok L nodeChunks hsr her htext hnode
          have hch₁ : List.Pairwise ChunkSpanRel chunks₁ ∧
              (∀ c ∈ chunks₁, 1 ≤ c.startLine ∧ c.startLine ≤ c.endLine ∧
                c.endLine + 1 ≤ node.startPosition.row + 1) ∧
              (∀ l, 1 ≤ l → l < node.startPosition.row + 1 →
                CoversLine chunks₁ l ∨ isBlank (L.getD (l - 1) []) = true) := by
            split at hgap
            · rename_i hlt
              split at hgap
              · rename_i hblank
                rw [Except.ok.injEq] at hgap
                subst hgap
                refine ⟨hpw, ?_, ?_⟩
                · intro c hc
                  obtain ⟨b1, b2, b3⟩ := hbounds c hc
                  exact ⟨b1, b2, by omega⟩
                · intro l hl1 hl2
                  by_cases hlc : l < cursor
                  · exact hcov l hl1 hlc
                  · refine Or.inr ?_
                    have hmem : L.getD (l - 1) []
                        ∈ (L.take node.startPosition.row).drop (cursor - 1) :=
                      getD_mem_take_drop L (cursor - 1) node.startPosition.row
                        (l - 1) (by omega) (by omega) (by omega)
                    exact ((isBlank_joinChar '\n' (by decide) _).mp hblank) _ hmem
              · rename_i hblank
                split at hgap
                · cases hgap
                · rename_i t ht
                  rw [Except.ok.injEq] at hgap
                  subst hgap
                  have hslne : (L.take node.startPosition.row).drop (cursor - 1)
                      ≠ [] := by
                    intro hdn
                    have := (take_drop_eq_nil_iff L node.startPosition.row
                      (cursor - 1) (by omega)).mp hdn
                    omega
                  have hspk : splitOnChar '\n' (joinChar '\n'
                      ((L.take node.startPosition.row).drop (cursor - 1)))
                      = (L.take node.startPosition.row).drop (cursor - 1) :=
                    splitOnChar_joinChar '\n' _ hslne
                      (fun x hx => hfree x (mem_of_mem_take_drop _ _ _ x hx))
                  obtain ⟨gpw, gbounds, gcov⟩ := processGapContent_spans _
                    cursor node.startPosition.row filePath language M tok L t
                    hc1 (by omega) hspk ht
                  refine ⟨?_, ?_, ?_⟩
                  · rw [List.pairwise_append]
                    refine ⟨hpw, gpw, ?_⟩
                    intro a ha b hb
                    have h3 := (hbounds a ha).2.2
                    have h4 := (gbounds b hb).1
                    exact Or.inl (by omega)
                  · intro c hc
                    rcases List.mem_append.mp hc with hm | hm
                    · obtain ⟨b1, b2, b3⟩ := hbounds c hm
                      exact ⟨b1, b2, by omega⟩
                    · obtain ⟨b1, b2, b3⟩ := gbounds c hm
                      exact ⟨by omega, b2, by omega⟩
                  · intro l hl1 hl2
                    by_cases hlc : l < cursor
                    · rcases hcov l hl1 hlc with hcv | hcv
                      · exact Or.inl (CoversLine_append_left _ _ _ hcv)
                      · exact Or.inr hcv
                    · rcases gcov l (by omega) (by omega) with hcv | hcv
                      · exact Or.inl (CoversLine_append_right _ _ _ hcv)
                      · exact Or.inr hcv
            · rename_i hge
              rw [Except.ok.injEq] at hgap
              subst hgap
              refine ⟨hpw, ?_, ?_⟩
              · intro c hc
                obtain ⟨b1, b2, b3⟩ := hbounds c hc
                exact ⟨b1, b2, by omega⟩
              · intro l hl1 hl2
                exact hcov l hl1 (by omega)
          obtain ⟨h1pw, h1bounds, h1cov⟩ := hch₁
          refine ih (node.endPosition.row + 1 + 1) (chunks₁ ++ nodeChunks)
            (by omega) (by omega) ?_ htail ?_ ?_ ?_ out h
          · intro nd hnd
            obtain ⟨_, k2, k3, k4⟩ := hnds nd (List.mem_cons_of_mem node hnd)
            have hlt := hhead nd hnd
            exact ⟨by omega, k2, k3, k4⟩
          · rw [List.pairwise_append]
            refine ⟨h1pw, npw, ?_⟩
            intro a ha b hb
            have h3 := (h1bounds a ha).2.2
            have h4 := (nbounds b hb).1
            exact Or.inl (by omega)
          · intro c hc
            rcases List.mem_append.mp hc with hm | hm
            · obtain ⟨b1, b2, b3⟩ := h1bounds c hm
              exact ⟨b1, b2, by omega⟩
            · obtain ⟨b1, b2, b3⟩ := nbounds c hm
              exact ⟨by omega, b2, by omega⟩
          · intro l hl1 hl2
            by_cases hlc : l < node.startPosition.row + 1
            · rcases h1cov l hl1 hlc with hcv | hcv
              · exact Or.inl (CoversLine_append_left _ _ _ hcv)
              · exact Or.inr hcv
            · rcases ncov l (by omega) (by omega) with hcv | hcv
              · exact Or.inl (CoversLine_append_right _ _ _ hcv)
              · exact Or.inr hcv

theorem chunkFileCatch_ok (fp : Str) (r : Except ChunkError (List FileChunk))
    (v : List FileChunk) (h : chunkFileCatch fp r = Except.ok v) :
    r = Except.ok v := by
  unfold chunkFileCatch at h
  split at h
  · exact h
  · cases h
  · cases h
  · cases h

/-!
Theorems settling the claims.
-/

/-- C3 amended: under any positive token budget, every chunk that chunkFile
emits has its stored tokenCount within the budget, except possibly
single-character fragments (the fallback unit of the oversized-line case).
The claim as stated — with the token count re-measured on the chunk content
— fails, because a flushed multi-line chunk stores an accumulated per-line
sum that undercounts the newline joins (see the counterexample and C2). -/
theorem C3_budget_amended (fsRead : Str → Except Str Str)
    (parse : Str → Except Str TSNode) (g : Str → Except Str Encoding)
    (options : ChunkFileOptions) (hm : (1 : Int) ≤ options.maxTokens)
    (chunks : List FileChunk)
    (h : chunkFile fsRead parse g options = Except.ok chunks) :
    ∀ c ∈ chunks, (c.tokenCount : Int) ≤ options.maxTokens ∨ c.content.length = 1 := by
  unfold chunkFile at h
  have h₁ := chunkFileCatch_ok _ _ _ h
  split at h₁
  · rw [Except.ok.injEq] at h₁
    subst h₁
    simp
  · split at h₁
    · cases h₁
    · split at h₁
      · cases h₁
      · split at h₁
        · cases h₁
        · exact processFileWithCursor_budget _ _ _ _ _ _ hm _ h₁

theorem countTokens_of_not_blank (tok : Tokenizer) (text : Str)
    (h : isBlank text = false) :
    tok.countTokens text = tok.encoding.encodeLen text := by
  unfold Tokenizer.countTokens
  rw [h]
  rfl

theorem splitOnChar_length_pos (c : Char) (s : Str) :
    1 ≤ (splitOnChar c s).length := by
  rcases hs : splitOnChar c s with _ | ⟨p, ps⟩
  · exact absurd hs (splitOnChar_ne_nil c s)
  · simp

theorem chunkFileCatch_tokenProcessing (fp m : Str) :
    chunkFileCatch fp (Except.error (ChunkError.tokenProcessing m)) =
      Except.error (ChunkError.parsing ((("Unexpected error processing ").toList)
        ++ fp ++ ((": ").toList) ++ m)) := rfl

theorem processFileWithCursor_no_nodes_invalid_budget (fileContent : Str)
    (fp lang : Str) (M : Int) (tok : Tokenizer) (hm : M ≤ 0)
    (hcontent : isBlank fileContent = false)
    (hpos : 1 ≤ tok.encoding.encodeLen fileContent) :
    processFileWithCursor fileContent [] fp lang M tok =
      Except.error (ChunkError.tokenProcessing
        (("maxTokens must be greater than 0").toList)) := by
  have hlen := splitOnChar_length_pos '\n' fileContent
  have hjoin := joinChar_splitOnChar '\n' fileContent
  simp only [processFileWithCursor, List.insertionSort, processFileWithCursorGo]
  rw [if_pos hlen]
  simp only [Nat.sub_self, List.drop_zero]
  rw [hjoin, hcontent]
  simp only [Bool.false_eq_true, if_false]
  have hcount : tok.countTokens fileContent = tok.encoding.encodeLen fileContent :=
    countTokens_of_not_blank tok fileContent hcontent
  simp only [processGapContent, hcount]
  rw [if_neg (by omega)]
  simp only [splitCode, hcontent, Bool.false_eq_true, if_false]
  rw [if_pos hm]

/-- C5 amended: an invalid budget is not rejected up front.  chunkFile first
reads and parses the file and only fails when a unit's processing reaches
splitCode, and the TokenProcessingError thrown there is re-wrapped by the
catch-all of chunkFile into a ParsingError; so with maxTokens ≤ 0 on a
supported, readable, parseable file with non-whitespace content (and no
collected nodes, e.g. none of the wanted kinds occur), chunkFile produces
zero chunks by failing with that wrapped Parsing-class error.  The batch
entry point batchProcessFiles performs no budget validation either (the
exported validateBatchOptions helper is never invoked by it). -/
theorem C5_amended_lazy_budget_error (fsRead : Str → Except Str Str)
    (parse : Str → Except Str TSNode) (g : Str → Except Str Encoding)
    (options : ChunkFileOptions) (cfg : ChunkConfig) (content : Str)
    (tree : TSNode) (tok : Tokenizer)
    (hm : options.maxTokens ≤ 0)
    (hcfg : LANG_CONFIG (extname options.filePath) = some cfg)
    (hread : fsRead options.filePath = Except.ok content)
    (hparse : parse content = Except.ok tree)
    (htok : createTokenizer g options.modelName = Except.ok tok)
    (hnodes : collectTreeNodesWithSymbols tree cfg.wantedNodes [] = [])
    (hcontent : isBlank content = false)
    (hpos : 1 ≤ tok.encoding.encodeLen content) :
    chunkFile fsRead parse g options = Except.error (ChunkError.parsing
      ((("Unexpected error processing ").toList) ++ options.filePath
        ++ ((": ").toList) ++ (("maxTokens must be greater than 0").toList))) := by
  unfold chunkFile
  simp only [hcfg, hread, hparse, htok, hnodes]
  rw [processFileWithCursor_no_nodes_invalid_budget content options.filePath
    cfg.name options.maxTokens tok hm hcontent hpos]
  exact chunkFileCatch_tokenProcessing options.filePath _

/-- C5 witness: the amended statement evaluated on the concrete one-line
file a.ts with maxTokens = 0. -/
theorem C5_amended_lazy_budget_error_witness :
    chunkFile c5Read c5Parse c1Enc c5Options = Except.error (ChunkError.parsing
      ((("Unexpected error processing ").toList) ++ c5Options.filePath
        ++ ((": ").toList) ++ (("maxTokens must be greater than 0").toList))) :=
  C5_amended_lazy_budget_error c5Read c5Parse c1Enc c5Options tsConfig c5Content
    c5Tree ⟨charCountEncoding, ("text-embedding-3-large").toList⟩
    (by decide) rfl rfl rfl rfl rfl (by decide) (by decide)

/-- C3 witness: the amended budget bound evaluated on the concrete nested
two-node file under budget 100. -/
theorem C3_budget_amended_witness :
    ∃ chunks, chunkFile c1Read c1Parse c1Enc c1Options = Except.ok chunks ∧
      ∀ c ∈ chunks, (c.tokenCount : Int) ≤ c1Options.maxTokens ∨ c.content.length = 1 :=
  ⟨_, rfl, C3_budget_amended c1Read c1Parse c1Enc c1Options (by decide) _ rfl⟩

/-- C4 (confirmed): every fragment that splitLongLine produces for one line
carries that line's number as both its start and end line, and the
fragments' contents concatenated in emitted order reproduce the original
line exactly. -/
theorem C4_line_split_reconstruction (line : Str) (lineNumber : Nat)
    (maxTokens : Int) (tok : Tokenizer) :
    (∀ s ∈ splitLongLine line lineNumber maxTokens tok,
        s.startLine = lineNumber ∧ s.endLine = lineNumber) ∧
    ((splitLongLine line lineNumber maxTokens tok).map (fun s => s.content)).flatten
      = line := by
  unfold splitLongLine
  exact splitLongLineGo_spec lineNumber maxTokens tok line


/-- C2 (code bug): the multi-line split flushed by splitCode stores the
accumulated sum of per-line token counts, not the directly measured count of
its joined content.  Under the character-count encoder the two-line source
joins to five characters while the stored count is the accumulated four, so
the stored tokenCount differs from countTokens of the chunk content — the
fidelity asserted by the spec (and by the repository's own split tests)
fails. -/
theorem C2_token_fidelity_failing_eval :
    splitCode { sourceCode := ("ab\ncd").toList, startLine := 1, maxTokens := 4,
                tokenizer := charCountTokenizer } =
      Except.ok [⟨("ab\ncd").toList, 1, 2, 4⟩] ∧
    charCountTokenizer.countTokens (("ab\ncd").toList) = 5 :=
  ⟨by decide, by decide⟩

/-- C3 counterexample: under a positive budget of 4 the splitter emits a
chunk whose content measures 5 tokens, and that chunk is not the
single-character fallback unit, so the claimed measured-count budget
conformance is false as stated. -/
theorem C3_budget_claim_counterexample :
    ∃ ss, splitCode ⟨("ab\ncd").toList, 1, 4, charCountTokenizer⟩ = Except.ok ss ∧
      ∃ s ∈ ss, (4 : Int) < (charCountTokenizer.countTokens s.content : Int) ∧
        s.content.length ≠ 1 := by
  refine ⟨_, rfl, ?_⟩
  decide

/-- C6 counterexample: with whitespace-only input and maxTokens = 0,
splitCode returns an empty list instead of failing, because the emptiness
check precedes the budget validation; so the claimed failure for every
input text under maxTokens ≤ 0 is false. -/
theorem C6_claim_counterexample :
    splitCode { sourceCode := ("   ").toList, startLine := 1, maxTokens := 0,
                tokenizer := charCountTokenizer } = Except.ok [] := by
  decide

/-- C6 amended: splitCode returns an empty sequence for every empty or
whitespace-only input regardless of the budget (this check comes first), and
for every input with non-whitespace content it fails with the
TokenProcessingError invalid-budget message whenever maxTokens ≤ 0. -/
theorem C6_amended_split_contract :
    (∀ options : SplitOptions, isBlank options.sourceCode = true →
        splitCode options = Except.ok []) ∧
    (∀ options : SplitOptions, isBlank options.sourceCode = false →
        options.maxTokens ≤ 0 →
        splitCode options = Except.error (ChunkError.tokenProcessing
          (("maxTokens must be greater than 0").toList))) := by
  constructor
  · intro o h
    unfold splitCode
    rw [h]
    rfl
  · intro o h h2
    unfold splitCode
    rw [h]
    simp only [Bool.false_eq_true, if_false]
    rw [if_pos h2]

/-- C6 witness: the amended contract evaluated at the empty input with a
zero budget and at a non-blank input with a zero budget. -/
theorem C6_amended_split_contract_witness :
    splitCode { sourceCode := [], startLine := 1, maxTokens := 0,
                tokenizer := charCountTokenizer } = Except.ok [] ∧
    splitCode { sourceCode := ("xyz").toList, startLine := 1, maxTokens := 0,
                tokenizer := charCountTokenizer } =
      Except.error (ChunkError.tokenProcessing
        (("maxTokens must be greater than 0").toList)) :=
  ⟨C6_amended_split_contract.1 _ (by decide),
   C6_amended_split_contract.2 _ (by decide) (by decide)⟩

/-- C7 counterexample: when the file completed first is the
lexicographically later path, the aggregate chunk list of the batch run is
not sorted by (filePath, startLine) — no sort is applied to it. -/
theorem C7_sorted_claim_counterexample :
    ¬ SortedByPathLine (aggregateResults [c7ResultB, c7ResultA]).2 := by
  decide

/-- The aggregation fold of batchProcessFiles, with a general accumulator. -/
theorem aggregateResults_foldl (results : List FileProcessingResult)
    (cs : List FileChunk) (es : List ProcessingError) (n : Nat) :
    results.foldl
      (fun (acc : List FileChunk × List ProcessingError × Nat) (result : FileProcessingResult) =>
        match result.error with
        | some e => (acc.1, acc.2.1 ++ [e], acc.2.2)
        | none => (acc.1 ++ result.chunks, acc.2.1, acc.2.2 + 1))
      (cs, es, n) =
    (cs ++ ((results.filter (fun r => r.error.isNone)).map (fun r => r.chunks)).flatten,
     es ++ results.filterMap (fun r => r.error),
     n + (results.filter (fun r => r.error.isNone)).length) := by
  induction results generalizing cs es n with
  | nil => simp
  | cons r t ih =>
      cases hr : r.error with
      | none =>
          simp [hr, ih, List.filter_cons, List.filterMap_cons]
          omega
      | some e => simp [hr, ih, List.filter_cons, List.filterMap_cons]

/-- C7 amended: the final aggregate chunk list of a batch run is exactly the
concatenation, in completion order, of the chunk lists of the successful
files; filesProcessed counts the successes, the error list collects the
per-file errors in order, and chunksCreated is the aggregate length.  No
(filePath, startLine) sort is applied, so the output is sorted only when
completion order happens to follow path order. -/
theorem C7_aggregate_concat_no_sort (results : List FileProcessingResult) :
    (aggregateResults results).2
        = ((results.filter (fun r => r.error.isNone)).map (fun r => r.chunks)).flatten ∧
    (aggregateResults results).1.filesProcessed
        = (results.filter (fun r => r.error.isNone)).length ∧
    (aggregateResults results).1.errors = results.filterMap (fun r => r.error) ∧
    (aggregateResults results).1.chunksCreated = (aggregateResults results).2.length := by
  unfold aggregateResults
  rw [aggregateResults_foldl]
  simp

/-- A lookup in an association list none of whose keys equals the query
yields none. -/
theorem lookup_eq_none_of_forall_ne (l : List (Str × Str)) (m : Str)
    (h : ∀ p ∈ l, p.1 ≠ m) : l.lookup m = none := by
  induction l with
  | nil => rfl
  | cons p t ih =>
      have hp : p.1 ≠ m := h p (List.mem_cons_self p t)
      have hb : (m == p.1) = false := by
        rw [beq_eq_false_iff_ne]
        exact fun hmp => hp hmp.symm
      simp only [List.lookup, hb]
      exact ih (fun q hq => h q (List.mem_cons_of_mem p hq))

/-- C9 (confirmed): for every model name outside the supported-model table
the constructor silently falls back to the cl100k_base encoding, so
createTokenizer succeeds (whenever the external get_encoding can produce
cl100k_base, which the bundled tiktoken always can) and records the
requested model name. -/
theorem C9_unknown_model_fallback (g : Str → Except Str Encoding) (modelName : Str)
    (hunknown : ∀ p ∈ SUPPORTED_MODELS, p.1 ≠ modelName)
    (enc : Encoding) (hbase : g (("cl100k_base").toList) = Except.ok enc) :
    createTokenizer g modelName = Except.ok ⟨enc, modelName⟩ := by
  unfold createTokenizer Tokenizer.init
  rw [lookup_eq_none_of_forall_ne SUPPORTED_MODELS modelName hunknown]
  simp only [Option.getD]
  rw [hbase]

/-- C9 witness: a model name outside the table. -/
theorem C9_unknown_model_fallback_witness :
    createTokenizer (fun _ => Except.ok charCountEncoding) (("my-custom-model").toList)
      = Except.ok ⟨charCountEncoding, ("my-custom-model").toList⟩ :=
  C9_unknown_model_fallback _ _ (by decide) charCountEncoding rfl

/-- C10 (confirmed): countTokens returns 0 on every blank (empty or
whitespace-only) text, for every encoder alike (the encoder is not
consulted), and therefore a blank text never exceeds any positive token
budget. -/
theorem C10_blank_zero_tokens (t : Tokenizer) (text : Str)
    (h : isBlank text = true) :
    t.countTokens text = 0 ∧
    (∀ maxTokens : Int, 0 < maxTokens → t.exceedsLimit text maxTokens = false) ∧
    (∀ e : Encoding, Tokenizer.countTokens ⟨e, t.modelName⟩ text = 0) := by
  refine ⟨?_, ?_, ?_⟩
  · unfold Tokenizer.countTokens
    rw [h]
    rfl
  · intro maxTokens hpos
    unfold Tokenizer.exceedsLimit Tokenizer.countTokens
    rw [h]
    simp only [if_true]
    simp only [decide_eq_false_iff_not]
    omega
  · intro e
    unfold Tokenizer.countTokens
    rw [h]
    rfl

/-- C10 witness: a whitespace-only text, a positive budget, and the
character-count tokenizer. -/
theorem C10_blank_zero_tokens_witness :
    charCountTokenizer.countTokens (("  \n ").toList) = 0 ∧
    charCountTokenizer.exceedsLimit (("  \n ").toList) 7 = false :=
  have h := C10_blank_zero_tokens charCountTokenizer (("  \n ").toList) (by decide)
  ⟨h.1, h.2.1 7 (by decide)⟩

/-- C5 counterexample: chunkFile with maxTokens = 0 on a readable,
parseable, supported file does fail with zero chunks, but only after
reading and parsing, and the surfaced error is a ParsingError (the
invalid-budget TokenProcessingError thrown inside splitCode is re-wrapped by
the catch-all of chunkFile), not a TokenProcessing error. -/
theorem C5_validation_claim_counterexample :
    chunkFile c5Read c5Parse c1Enc c5Options =
      Except.error (ChunkError.parsing
        (("Unexpected error processing a.ts: maxTokens must be greater than 0").toList)) ∧
    ∀ m, chunkFile c5Read c5Parse c1Enc c5Options ≠
      Except.error (ChunkError.tokenProcessing m) := by
  have h₁ : chunkFile c5Read c5Parse c1Enc c5Options =
      Except.error (ChunkError.parsing
        (("Unexpected error processing a.ts: maxTokens must be greater than 0").toList)) := by
    decide
  refine ⟨h₁, ?_⟩
  intro m h
  rw [h₁] at h
  simp at h

/-- C8 counterexample: a tokenizer failure (get_encoding throws while
acquiring the encoder) on the file src/chunk-file.ts is surfaced by the
per-file pipeline with error type file_system, not token_processing — the
batch layer re-derives the type from the wrapped message, and the file path
contains the substring file.  The file is skipped with zero chunks. -/
theorem C8_claim_counterexample :
    processFileWithErrorHandling c8Read c8Parse c8FailEnc c8Path c8Options true =
      Except.ok ⟨c8Path, [],
        some ⟨ErrorType.file_system, c8Path,
          tokenizerInitWrappedMessage c8Path (("text-embedding-3-large").toList)
            (("boom").toList), true⟩⟩ ∧
    ErrorType.file_system ≠ ErrorType.token_processing :=
  ⟨by decide, by decide⟩

/-- C1 counterexample: on a file whose wanted nodes are nested (a method
inside a class, both kinds wanted by the TypeScript configuration) and whose
tail is blank, the chunks emitted by chunkFile via processFileWithCursor
overlap (the method chunk lies inside the class chunk) and the blank tail is
not covered, so the claimed disjoint exact cover of 1..totalLines is
false. -/
theorem C1_coverage_claim_counterexample :
    ∃ chunks, chunkFile c1Read c1Parse c1Enc c1Options = Except.ok chunks ∧
      ¬ SpecC1Prop chunks 4 := by
  refine ⟨_, rfl, ?_⟩
  intro h
  exact absurd h.1 (by decide)

/-- C1 (amended): when the wanted nodes are non-nested (pairwise strictly
ordered, each ending before the next starts), well formed (start row at most
end row, end row inside the file) and carry exactly the text of their line
span, every successful run of processFileWithCursor emits chunks that are
pairwise span-disjoint or span-identical (identical spans arise only among
the fragments of one oversized line), all lying inside [1, totalLines], and
every line of the file is either covered by some chunk or blank (blank-only
gap regions and blank buffered tails are silently dropped, so the spec's
exact cover holds only up to blank lines, and only for non-nested nodes:
nested wanted nodes yield genuine overlaps, see the counterexample). -/
theorem C1_coverage_amended (fileContent : Str)
    (astNodes : List EnhancedASTNode) (filePath language : Str) (M : Int)
    (tok : Tokenizer) (out : List FileChunk)
    (hndpw : List.Pairwise
      (fun a b => a.endPosition.row < b.startPosition.row) astNodes)
    (hwf : ∀ nd ∈ astNodes, nd.startPosition.row ≤ nd.endPosition.row ∧
        nd.endPosition.row < (splitOnChar '\n' fileContent).length)
    (htext : ∀ nd ∈ astNodes, splitOnChar '\n' nd.text
        = ((splitOnChar '\n' fileContent).take (nd.endPosition.row + 1)).drop
            nd.startPosition.row)
    (h : processFileWithCursor fileContent astNodes filePath language M tok
        = Except.ok out) :
    List.Pairwise SpanDisjointOrEqual out ∧
    (∀ c ∈ out, 1 ≤ c.startLine ∧ c.startLine ≤ c.endLine ∧
        c.endLine ≤ (splitOnChar '\n' fileContent).length) ∧
    (∀ l, 1 ≤ l → l ≤ (splitOnChar '\n' fileContent).length →
        CoversLine out l ∨
        isBlank ((splitOnChar '\n' fileContent).getD (l - 1) []) = true) := by
  simp only [processFileWithCursor] at h
  have hsorted : List.insertionSort nodeRel astNodes = astNodes := by
    apply List.Sorted.insertionSort_eq
    refine List.Pairwise.imp_of_mem ?_ hndpw
    intro a b ha hb hab
    exact Or.inl (by have := (hwf a ha).1; omega)
  rw [hsorted] at h
  split at h
  · cases h
  · rename_i chunks hgo
    rw [Except.ok.injEq] at h
    subst h
    obtain ⟨gpw, gbounds, gcov⟩ := processFileWithCursorGo_spans
      (splitOnChar '\n' fileContent) filePath language M tok
      (fun x hx => not_mem_of_mem_splitOnChar '\n' fileContent x hx)
      astNodes 1 [] (Nat.le_refl 1) (by omega)
      (fun nd hnd => ⟨by omega, (hwf nd hnd).1, (hwf nd hnd).2, htext nd hnd⟩)
      hndpw List.Pairwise.nil (by simp)
      (fun l hl1 hl2 => absurd hl1 (by omega)) chunks hgo
    have hsorted₂ : List.insertionSort chunkRel chunks = chunks := by
      apply List.Sorted.insertionSort_eq
      refine List.Pairwise.imp_of_mem ?_ gpw
      intro a b ha hb hab
      show a.startLine ≤ b.startLine
      rcases hab with h₁ | h₁
      · have := (gbounds a ha).2.1
        omega
      · omega
    rw [hsorted₂]
    refine ⟨?_, gbounds, gcov⟩
    refine List.Pairwise.imp ?_ gpw
    intro a b hab
    exact hab.elim (fun h₁ => Or.inl (Or.inl h₁)) (fun h₁ => Or.inr h₁)

/-- C1 amended witness: a four-line file with one non-nested wanted node on
its second line; the run succeeds and the conclusion holds at it. -/
theorem C1_coverage_amended_witness :
    ∃ out, processFileWithCursor c1wContent [c1wNode] (("a.ts").toList)
        (("typescript").toList) 100 charCountTokenizer = Except.ok out ∧
      (List.Pairwise SpanDisjointOrEqual out ∧
       (∀ c ∈ out, 1 ≤ c.startLine ∧ c.startLine ≤ c.endLine ∧
           c.endLine ≤ (splitOnChar '\n' c1wContent).length) ∧
       (∀ l, 1 ≤ l → l ≤ (splitOnChar '\n' c1wContent).length →
           CoversLine out l ∨
           isBlank ((splitOnChar '\n' c1wContent).getD (l - 1) []) = true)) :=
  ⟨_, rfl, C1_coverage_amended c1wContent [c1wNode] (("a.ts").toList)
    (("typescript").toList) 100 charCountTokenizer _ (by decide) (by decide)
    (by decide) rfl⟩

theorem isPrefixB_append (n x y : Str) (h : isPrefixB n x = true) :
    isPrefixB n (x ++ y) = true := by
  induction n generalizing x with
  | nil => rfl
  | cons a as ih =>
      cases x with
      | nil => cases h
      | cons b bs =>
          simp only [isPrefixB, Bool.and_eq_true] at h
          simp only [List.cons_append, isPrefixB, Bool.and_eq_true]
          exact ⟨h.1, ih bs h.2⟩

theorem strIncludes_append_left (a b n : Str) (h : strIncludes a n = true) :
    strIncludes (a ++ b) n = true := by
  induction a with
  | nil =>
      simp only [strIncludes] at h
      cases n with
      | nil =>
          cases b with
          | nil => rfl
          | cons c cs =>
              simp only [List.nil_append, strIncludes]
              rw [show isPrefixB [] (c :: cs) = true from rfl]
              simp
      | cons m ms => cases h
  | cons c cs ih =>
      simp only [strIncludes, Bool.or_eq_true] at h
      simp only [List.cons_append, strIncludes, Bool.or_eq_true]
      rcases h with h | h
      · exact Or.inl (isPrefixB_append n (c :: cs) b h)
      · exact Or.inr (ih h)

theorem strIncludes_append_right (a b n : Str) (h : strIncludes b n = true) :
    strIncludes (a ++ b) n = true := by
  induction a with
  | nil => exact h
  | cons c cs ih =>
      simp only [List.cons_append, strIncludes, Bool.or_eq_true]
      exact Or.inr ih

/-- C8 amended: a tokenizer failure is wrapped by chunkFile into a
Parsing-class error whose message embeds the file path, and the batch layer
re-derives the surfaced type from substrings of that combined message; it
comes out as token_processing (via the substring token of tokenizer) only
when the combined lowercased message contains none of enoent, eacces, file,
parse, syntax — in particular the file path must avoid them.  The file is
always skipped with zero chunks. -/
theorem C8_amended_classification (fsRead : Str → Except Str Str)
    (parse : Str → Except Str TSNode) (g : Str → Except Str Encoding)
    (options : ChunkFileOptions) (cfg : ChunkConfig) (content : Str)
    (tree : TSNode) (m : Str)
    (hcfg : LANG_CONFIG (extname options.filePath) = some cfg)
    (hread : fsRead options.filePath = Except.ok content)
    (hparse : parse content = Except.ok tree)
    (hg : g ((SUPPORTED_MODELS.lookup options.modelName).getD (("cl100k_base").toList))
        = Except.error m)
    (habs : ∀ needle ∈ ["enoent", "eacces", "file", "parse", "syntax"],
        strIncludes ((tokenizerInitWrappedMessage options.filePath options.modelName
          m).map Char.toLower) needle.toList = false) :
    processFileWithErrorHandling fsRead parse g options.filePath options true =
      Except.ok ⟨options.filePath, [],
        some ⟨ErrorType.token_processing, options.filePath,
          tokenizerInitWrappedMessage options.filePath options.modelName m, true⟩⟩ := by
  have hcf : chunkFile fsRead parse g options = Except.error (ChunkError.parsing
      (tokenizerInitWrappedMessage options.filePath options.modelName m)) := by
    unfold chunkFile
    simp only [hcfg, hread, hparse, createTokenizer, Tokenizer.init, hg]
    unfold chunkFileCatch tokenizerInitWrappedMessage
    simp only [ChunkError.message]
    simp [List.append_assoc]
  have htok : strIncludes ((tokenizerInitWrappedMessage options.filePath
      options.modelName m).map Char.toLower) (("token").toList) = true := by
    unfold tokenizerInitWrappedMessage
    simp only [List.map_append, List.append_assoc]
    apply strIncludes_append_right
    apply strIncludes_append_right
    apply strIncludes_append_right
    apply strIncludes_append_left
    decide
  have hdet : determineErrorType (tokenizerInitWrappedMessage options.filePath
      options.modelName m) = ErrorType.token_processing := by
    simp only [determineErrorType]
    rw [habs "enoent" (by simp), habs "eacces" (by simp), habs "file" (by simp),
      habs "parse" (by simp), habs "syntax" (by simp), htok]
    rfl
  unfold processFileWithErrorHandling
  rw [hcf]
  simp only [ChunkError.message, hdet]
  rfl

/-- C8 witness: the amended classification on the path a.ts (which contains
none of the reclassifying substrings), with get_encoding failing. -/
theorem C8_amended_classification_witness :
    processFileWithErrorHandling c5Read c5Parse c8FailEnc c8WitnessOptions.filePath
        c8WitnessOptions true =
      Except.ok ⟨c8WitnessOptions.filePath, [],
        some ⟨ErrorType.token_processing, c8WitnessOptions.filePath,
          tokenizerInitWrappedMessage c8WitnessOptions.filePath
            (("text-embedding-3-large").toList) (("boom").toList), true⟩⟩ :=
  C8_amended_classification c5Read c5Parse c8FailEnc c8WitnessOptions tsConfig
    c5Content c5Tree (("boom").toList) rfl rfl rfl rfl (by decide)

end ClipCode
